import Mathlib

/-!
Verification development for the drcecim_upload repository.

The development shallowly embeds the two algorithmic cores of the repository:

* the document chunking engine (`src/services/processing_service.py`,
  class `DocumentProcessor`: `split_into_chunks` and its helpers), and
* the incremental FAISS index synchronization subsystem
  (`src/services/index_manager_service.py` and
  `src/cloud_functions/create_embeddings/main.py`).

Python strings are modelled as `List Char` (named `Str`), so that every
definition is executable by kernel reduction.  Python's `str.split('\n')`,
`str.split('\n\n')`, `str.split()` (whitespace word splitting) and the three
line-anchored regular expressions of the chunker are reproduced as structural
recursions below.  FAISS indexes are modelled as a dimension together with the
ordered list of stored vectors; pandas DataFrames of chunk metadata are
modelled as a list of rows together with a flag recording whether the
`document_id` column is present (reading a CSV that predates the column
yields a table without it; `NaN` cells of that column are `Option.none`).
-/

/-- Python strings, modelled as lists of characters. -/
abbrev Str := List Char

/-- Whitespace in the sense of Python's `str.split()` and of `\s` in the
`re` patterns of the chunker, restricted to the ASCII whitespace characters
(the inputs of the pipeline are Marker's markdown output; the non-ASCII
unicode space characters are not in scope). -/
def isSpaceChar (c : Char) : Bool :=
  c = ' ' || c = '\t' || c = '\n' || c = '\r' || c = '\x0b' || c = '\x0c'

/-- Auxiliary word counter: `inWord` records whether the previous character
was part of a word. -/
def countWordsAux : Bool → Str → Nat
  | _, [] => 0
  | inWord, c :: cs =>
      if isSpaceChar c then countWordsAux false cs
      else (if inWord then 0 else 1) + countWordsAux true cs

/-- `len(s.split())` in Python: the number of maximal non-whitespace runs. -/
def countWords (s : Str) : Nat := countWordsAux false s

/-- Python's `text.split(c)` for a one-character separator: splits at every
occurrence, keeping empty pieces, and returns `[""]` on the empty string. -/
def splitOnChar (c : Char) : Str → List Str
  | [] => [[]]
  | x :: xs =>
      if x = c then [] :: splitOnChar c xs
      else
        match splitOnChar c xs with
        | [] => [[x]]
        | h :: t => (x :: h) :: t

/-- Python's `text.split('\n\n')`: greedy left-to-right non-overlapping
splitting on the two-character separator. -/
def splitOnBlank : Str → List Str
  | '\n' :: '\n' :: xs => [] :: splitOnBlank xs
  | x :: xs =>
      match splitOnBlank xs with
      | [] => [[x]]
      | h :: t => (x :: h) :: t
  | [] => [[]]

/-- `'\n'.join(pieces)`. -/
def joinNL (pieces : List Str) : Str := List.intercalate ['\n'] pieces

/-- `'\n\n'.join(pieces)`. -/
def joinBlank (pieces : List Str) : Str := List.intercalate ['\n', '\n'] pieces

/-- `os.path.basename` for the POSIX paths used by the pipeline: the part of
the name after the last `/`. -/
def basename (s : Str) : Str := (splitOnChar '/' s).getLastD []

/-- `title_pattern = re.compile(r'^#\s+')`, used with `.match` (and with
`.search`, which is equivalent here because the pattern is anchored at `^`
and `re.MULTILINE` is not set): a `#` followed by at least one whitespace
character at the very start of the string. -/
def matchTitle : Str → Bool
  | '#' :: c :: _ => isSpaceChar c
  | _ => false

/-- `section_pattern = re.compile(r'^##\s+')`, used with `.match`/`.search`:
two `#` followed by whitespace at the start of the string. -/
def matchSection : Str → Bool
  | '#' :: '#' :: c :: _ => isSpaceChar c
  | _ => false

/-- After `### Art` (or `### artículo` etc.), the regex requires
`(?:ículo|\.)` then `\s*` then at least one digit (`\d+`); everything after
the first digit (`º?`, `\.?`, the rest of the line) is optional, so match
success does not depend on it. -/
def matchArticleTail (r : Str) : Bool :=
  let rest := r.dropWhile isSpaceChar
  match rest with
  | d :: _ => d.isDigit
  | [] => false

/-- `article_pattern = re.compile(r'^###\s+Art(?:ículo|\.)\s*(\d+\º?)\.?',
re.IGNORECASE)`, used with `.match`: three `#`, then at least one whitespace
character, then `art` case-insensitively, then either a literal `.` or
`ículo` case-insensitively, then optional whitespace and a digit. -/
def matchArticle : Str → Bool
  | '#' :: '#' :: '#' :: rest =>
      let ws := rest.takeWhile isSpaceChar
      let r1 := rest.dropWhile isSpaceChar
      if ws.isEmpty then false
      else
        match r1 with
        | a :: r :: t :: r2 =>
            if (a = 'a' || a = 'A') && (r = 'r' || r = 'R') &&
               (t = 't' || t = 'T') then
              match r2 with
              | '.' :: r3 => matchArticleTail r3
              | i :: c :: u :: l :: o :: r3 =>
                  if (i = 'í' || i = 'Í') && (c = 'c' || c = 'C') &&
                     (u = 'u' || u = 'U') && (l = 'l' || l = 'L') &&
                     (o = 'o' || o = 'O') then matchArticleTail r3
                  else false
              | _ => false
            else false
        | _ => false
  | _ => false

/-- `page_break_pattern = re.compile(r'^\d+\s*\n-{3,}$')`, used with
`.match`: at least one digit, a whitespace run whose last character is a
newline (the mandatory `\n` just before the dashes), at least three dashes,
and then the end of the string (`$` also matches just before one final
trailing newline).  Note that the pattern can only match a string that
contains a literal newline. -/
def matchPageBreak (l : Str) : Bool :=
  let ds := l.takeWhile Char.isDigit
  let r1 := l.dropWhile Char.isDigit
  if ds.isEmpty then false
  else
    let ws := r1.takeWhile isSpaceChar
    let r2 := r1.dropWhile isSpaceChar
    if ws.getLast? = some '\n' then
      let dashes := r2.takeWhile (· = '-')
      let r3 := r2.dropWhile (· = '-')
      decide (3 ≤ dashes.length) && (r3.isEmpty || r3 = ['\n'])
    else false

/-- `f"[Documento: {os.path.basename(filename)}] "`: the provenance tag put
in front of every emitted chunk. -/
def docTag (filename : Str) : Str :=
  "[Documento: ".toList ++ basename filename ++ "] ".toList

/-- The positions (in order) of the elements satisfying a predicate: the
`for i, line in enumerate(lines)` scan of `split_into_chunks` restricted to
one `elif` arm, and likewise `df[cond].index.tolist()` for a DataFrame with
the default `RangeIndex` (which is what every table in this pipeline has,
being built by `read_csv`, `DataFrame(records)` or `reset_index`). -/
def markedIdxs {α : Type} (q : α → Bool) (xs : List α) : List Nat :=
  (xs.enum.filter (fun p => q p.2)).map Prod.fst

/-- Consecutive pairs of a list: the `(indices[i], indices[i+1])` pairs
enumerated by the `for i in range(len(indices) - 1)` loops. -/
def consecPairs : List Nat → List (Nat × Nat)
  | a :: b :: rest => (a, b) :: consecPairs (b :: rest)
  | _ => []

/-- `lines[start:end]`. -/
def sliceLines (lines : List Str) (s e : Nat) : List Str :=
  (lines.drop s).take (e - s)

/-- The loop body of `_split_large_section` after the head line has been
fixed: `current` is kept in reverse order, `curSize` is `current_size`. -/
def splitLargeSectionAux (tag : Str) (head : Str) (chunkSize : Nat) :
    List Str → List Str → Nat → List Str
  | [], current, _ =>
      if current.isEmpty then [] else [tag ++ joinNL current.reverse]
  | line :: rest, current, curSize =>
      let lw := countWords line
      if curSize + lw ≤ chunkSize then
        splitLargeSectionAux tag head chunkSize rest (line :: current) (curSize + lw)
      else
        (tag ++ joinNL current.reverse) ::
          splitLargeSectionAux tag head chunkSize rest [line, head]
            (countWords head + lw)

/-- `_split_large_section(section_lines, filename, chunk_size)`: packs the
lines of one oversized article/section into chunks, restarting every new
chunk with the heading line `section_lines[0]` as context.  The function is
only ever called on a non-empty list of lines (`section_lines[0]` would
raise on an empty one); the `[]` case is unreachable from the call sites. -/
def splitLargeSection (sectionLines : List Str) (filename : Str)
    (chunkSize : Nat) : List Str :=
  match sectionLines with
  | [] => []
  | head :: rest =>
      splitLargeSectionAux (docTag filename) head chunkSize rest [head]
        (countWords head)

/-- `_split_by_articles(lines, article_indices, filename, chunk_size)`.
`_split_by_sections` has the identical body (only local variable names
differ), so both Python functions are embedded by this one definition. -/
def splitByArticles (lines : List Str) (idxs : List Nat) (filename : Str)
    (chunkSize : Nat) : List Str :=
  (consecPairs (idxs ++ [lines.length])).flatMap fun p =>
    let seg := sliceLines lines p.1 p.2
    let segText := joinNL seg
    if countWords segText ≤ chunkSize then [docTag filename ++ segText]
    else splitLargeSection seg filename chunkSize

/-- The loop of `_split_by_paragraphs`: `current` is the (reversed)
`current_chunk`, `curSize` is `current_size`. -/
def splitByParagraphsAux (tag : Str) (chunkSize : Nat) :
    List Str → List Str → Nat → List Str
  | [], current, _ =>
      if current.isEmpty then [] else [tag ++ joinBlank current.reverse]
  | par :: rest, current, curSize =>
      let w := countWords par
      if curSize + w ≤ chunkSize then
        splitByParagraphsAux tag chunkSize rest (par :: current) (curSize + w)
      else if current.isEmpty then
        splitByParagraphsAux tag chunkSize rest [par] w
      else
        (tag ++ joinBlank current.reverse) ::
          splitByParagraphsAux tag chunkSize rest [par] w

/-- `_split_by_paragraphs(text, filename, chunk_size)`: greedy packing of
the blank-line separated paragraphs. -/
def splitByParagraphs (text : Str) (filename : Str) (chunkSize : Nat) :
    List Str :=
  splitByParagraphsAux (docTag filename) chunkSize (splitOnBlank text) [] 0

/-- `_split_by_pages(lines, page_breaks, filename, chunk_size)`: the pages
are the slices `lines[b+1:b']` for consecutive members of
`[-1] + page_breaks + [len(lines)]`. -/
def splitByPages (lines : List Str) (pageBreaks : List Nat) (filename : Str)
    (chunkSize : Nat) : List Str :=
  let starts := 0 :: pageBreaks.map (· + 1)
  let stops := pageBreaks ++ [lines.length]
  (starts.zip stops).flatMap fun p =>
    let pageText := joinNL (sliceLines lines p.1 p.2)
    if chunkSize < countWords pageText then
      splitByParagraphs pageText filename chunkSize
    else [docTag filename ++ pageText]

/-- `previous_chunk + "\n\n" + chunk` applied to the last element of the
accumulated list (`processed_chunks[-1] = combined_chunk`). -/
def appendToLast (chunk : Str) : List Str → List Str
  | [] => [chunk]
  | [last] => [last ++ '\n' :: '\n' :: chunk]
  | x :: y :: xs => x :: appendToLast chunk (y :: xs)

/-- The loop of `_combine_small_chunks`: `i` is the `enumerate` index, `acc`
is `processed_chunks` (in order). -/
def combineSmallChunksAux (minChunkSize : Nat) :
    List Str → Nat → List Str → List Str
  | [], _, acc => acc
  | chunk :: rest, i, acc =>
      if decide (countWords chunk < minChunkSize) && decide (0 < i) &&
         !matchTitle chunk && !matchSection chunk then
        if acc.isEmpty then
          combineSmallChunksAux minChunkSize rest (i + 1) (acc ++ [chunk])
        else
          combineSmallChunksAux minChunkSize rest (i + 1) (appendToLast chunk acc)
      else combineSmallChunksAux minChunkSize rest (i + 1) (acc ++ [chunk])

/-- `_combine_small_chunks(chunks, min_chunk_size=50)`: merges a chunk of
fewer than `min_chunk_size` words into the previous accumulated chunk,
unless it is the first chunk or `title_pattern`/`section_pattern` matches at
the start of its raw text (the patterns are `^`-anchored, so `.search`
behaves exactly like `.match` on them). -/
def combineSmallChunks (chunks : List Str) (minChunkSize : Nat) : List Str :=
  if chunks.isEmpty then chunks
  else combineSmallChunksAux minChunkSize chunks 0 []

/-- The line classification of the scan loop in `split_into_chunks`.  The
`elif` chain means a line is counted as an article marker only when the
title/section arms did not fire first (in fact `matchArticle` forces a
leading `###`, which excludes both, but the embedding keeps the chain). -/
def isSectionLine (l : Str) : Bool := matchTitle l || matchSection l

/-- A line that reaches the article arm of the `elif` chain and matches. -/
def isArticleLine (l : Str) : Bool :=
  !matchTitle l && !matchSection l && matchArticle l

/-- The `page_breaks` list of the scan loop: a line reaches this last
`elif` arm only when the three marker arms did not fire, and the arm also
requires `i < len(lines) - 1`. -/
def pageBreakIdxs (lines : List Str) : List Nat :=
  (lines.enum.filter (fun p =>
    (!matchTitle p.2 && !matchSection p.2 && !matchArticle p.2 &&
      matchPageBreak p.2) && decide (p.1 < lines.length - 1))).map Prod.fst

/-- The `if/elif/else` strategy choice of `split_into_chunks`: articles win,
then sections/titles, then page breaks, with paragraph packing as the
fallback (the paragraph splitter receives the whole `text`, not `lines`). -/
def chooseSplit (lines : List Str) (text filename : Str) (chunkSize : Nat) :
    List Str :=
  if !(markedIdxs isArticleLine lines).isEmpty then
    splitByArticles lines (markedIdxs isArticleLine lines) filename chunkSize
  else if !(markedIdxs isSectionLine lines).isEmpty then
    splitByArticles lines (markedIdxs isSectionLine lines) filename chunkSize
  else if !(pageBreakIdxs lines).isEmpty then
    splitByPages lines (pageBreakIdxs lines) filename chunkSize
  else splitByParagraphs text filename chunkSize

/-- `split_into_chunks(text, filename, chunk_size=CHUNK_SIZE,
overlap=CHUNK_OVERLAP)`.  The `overlap` argument is accepted (defaulting to
`CHUNK_OVERLAP = 50`) but, exactly as in the source, it is not used by the
body.  Empty text returns no chunks; otherwise the first structural signal
found decides the splitting strategy (`chooseSplit`), and the result is
post-processed by `_combine_small_chunks` with its default threshold 50. -/
def splitIntoChunks (text : Str) (filename : Str) (chunkSize : Nat)
    (overlap : Nat) : List Str :=
  if text.isEmpty then []
  else
    combineSmallChunks
      (chooseSplit (splitOnChar '\n' text) text filename chunkSize) 50

/-!
## The vector-index synchronization subsystem

`src/services/index_manager_service.py` and the copies of the same functions
in `src/cloud_functions/create_embeddings/main.py`
(`load_existing_faiss_index`, `remove_old_document_chunks`,
`update_faiss_index`, `save_updated_index`) are embedded below.  The two
copies are line-for-line identical in the parts modelled here, so one
definition embeds both.
-/

/-- An embedding vector.  The pipeline never computes with the float
entries — they are only stored, reconstructed and copied — so the entries
are modelled by an arbitrary decidable type, here `Int`. -/
abbrev Vec := List Int

/-- A FAISS `IndexFlatIP`: its fixed dimension `d` and the ordered list of
stored vectors (`ntotal = vecs.length`, `reconstruct_n(0, ntotal) = vecs`).
The similarity metric (inner product) plays no role in the mutations. -/
structure FaissIndex where
  d : Nat
  vecs : List Vec
deriving DecidableEq, Repr

/-- `faiss.IndexFlatIP(dimension)`: a fresh empty index. -/
def indexFlatIP (d : Nat) : FaissIndex := ⟨d, []⟩

/-- `index.add(vectors)`: FAISS refuses vectors whose dimension differs
from the index dimension (the embedding returns `none` where FAISS would
raise). -/
def faissAdd (idx : FaissIndex) (vs : List Vec) : Option FaissIndex :=
  if vs.all (fun v => v.length = idx.d) then some ⟨idx.d, idx.vecs ++ vs⟩
  else none

/-- `index.ntotal` of an optional index (`0` when there is no index). -/
def ntotalOpt : Option FaissIndex → Nat
  | none => 0
  | some idx => idx.vecs.length

/-- The stored vectors of an optional index (`[]` when there is none): with
the row-aligned metadata, `(vecsOpt i).zip meta.rows` is the list of index
entries (vector, metadata record) in storage order. -/
def vecsOpt : Option FaissIndex → List Vec
  | none => []
  | some idx => idx.vecs

/-- The FAISS representation invariant: every stored vector has the index
dimension (a real `IndexFlatIP` stores a flat `ntotal × d` float buffer, so
this always holds of a real index). -/
def WfIndex (idx : FaissIndex) : Prop := ∀ v ∈ idx.vecs, v.length = idx.d

/-- `WfIndex` for an optional index. -/
def WfIndexOpt : Option FaissIndex → Prop
  | none => True
  | some idx => WfIndex idx

instance (idx : FaissIndex) : Decidable (WfIndex idx) := by
  unfold WfIndex
  infer_instance

instance (i : Option FaissIndex) : Decidable (WfIndexOpt i) := by
  cases i <;> unfold WfIndexOpt <;> infer_instance

/-- One row of the chunk metadata table.  `document_id` is `none` where the
CSV cell is missing/NaN; `extra` stands for the remaining columns
(`chunk_id`, `text`, `chunk_index`, `word_count`, `char_count`, ...), which
the synchronization code moves around but never inspects. -/
structure MetaRow where
  document_id : Option Str
  filename : Str
  extra : List Str
deriving DecidableEq, Repr

/-- The chunk metadata DataFrame: its rows in order, and whether the
`document_id` column is present at all (metadata written before the column
was introduced lacks it). -/
structure MetaTable where
  hasDocIdCol : Bool
  rows : List MetaRow
deriving DecidableEq, Repr

/-- `pd.DataFrame()`: the empty table (no columns, no rows). -/
def emptyTable : MetaTable := ⟨false, []⟩

/-- `x.replace('.pdf', '')`: removes every (non-overlapping, left-to-right)
occurrence of `.pdf`. -/
def removeDotPdf : Str → Str
  | '.' :: 'p' :: 'd' :: 'f' :: rest => removeDotPdf rest
  | c :: rest => c :: removeDotPdf rest
  | [] => []

/-- The compatibility fallback applied to one `filename` cell:
`x.replace('.pdf', '') if x.endswith('.pdf') else x`. -/
def fallbackDocId (filename : Str) : Str :=
  if (".pdf".toList).isSuffixOf filename then removeDotPdf filename
  else filename

/-- The in-place mutation `existing_metadata['document_id'] =
existing_metadata['filename'].apply(...)` performed by
`remove_old_document_chunks` when the `document_id` column is absent. -/
def applyDocIdFallback (m : MetaTable) : MetaTable :=
  if m.hasDocIdCol then m
  else ⟨true, m.rows.map fun r => { r with document_id := some (fallbackDocId r.filename) }⟩

/-- The row condition `existing_metadata['document_id'] == document_id`: a
NaN/absent cell compares unequal to every string, matching pandas. -/
def rowMatches (documentId : Str) (r : MetaRow) : Bool :=
  r.document_id = some documentId

/-- `existing_metadata[existing_metadata['document_id'] ==
document_id].index.tolist()`: the row positions whose `document_id` cell
equals the given id. -/
def chunksToRemove (m : MetaTable) (documentId : Str) : List Nat :=
  markedIdxs (rowMatches documentId) m.rows

/-- `remaining_indices = [i for i in range(len(existing_metadata)) if i not
in chunks_to_remove]` (computed after the fallback mutation, so on the
mutated table). -/
def remainingIndices (m1 : MetaTable) (documentId : Str) : List Nat :=
  (List.range m1.rows.length).filter
    (fun i => decide (i ∉ chunksToRemove m1 documentId))

/-- `remove_old_document_chunks(existing_index, existing_metadata,
document_id)` (the local variables `meta1 = existing_metadata` after the
in-place column fallback, `chunks_to_remove` and `remaining_indices` are
written out via `applyDocIdFallback`, `chunksToRemove` and
`remainingIndices`).  The whole body runs under `try/except Exception`; the
only failures reachable in the modelled state space are the numpy
fancy-indexing `all_vectors[remaining_indices]` going out of range (when the
index holds fewer vectors than the metadata has rows) and a FAISS dimension
error on re-adding, and in those cases the `except` arm returns the inputs
unchanged — unchanged up to the in-place `document_id` column mutation,
which has already happened by then. -/
def removeOldDocumentChunks (existingIndex : Option FaissIndex)
    (existingMetadata : MetaTable) (documentId : Str) :
    Option FaissIndex × MetaTable × List Nat :=
  if existingIndex.isNone || existingMetadata.rows.isEmpty then
    (existingIndex, existingMetadata, [])
  else if (chunksToRemove (applyDocIdFallback existingMetadata) documentId).isEmpty then
    (existingIndex, applyDocIdFallback existingMetadata, [])
  else if (remainingIndices (applyDocIdFallback existingMetadata) documentId).isEmpty then
    (none, emptyTable, chunksToRemove (applyDocIdFallback existingMetadata) documentId)
  else
    match existingIndex with
    | none => (existingIndex, existingMetadata, [])
    | some idx =>
        if (remainingIndices (applyDocIdFallback existingMetadata) documentId).all
            (fun i => decide (i < idx.vecs.length)) then
          match faissAdd (indexFlatIP idx.d)
              ((remainingIndices (applyDocIdFallback existingMetadata)
                  documentId).filterMap (fun i => idx.vecs.get? i)) with
          | some newIndex =>
              (some newIndex,
               ⟨(applyDocIdFallback existingMetadata).hasDocIdCol,
                (remainingIndices (applyDocIdFallback existingMetadata)
                    documentId).filterMap
                  (fun i => (applyDocIdFallback existingMetadata).rows.get? i)⟩,
               chunksToRemove (applyDocIdFallback existingMetadata) documentId)
          | none => (some idx, applyDocIdFallback existingMetadata, [])
        else (some idx, applyDocIdFallback existingMetadata, [])

/-- `pd.concat([existing_metadata, new_metadata_df], ignore_index=True)`
where `new_metadata_df` always carries the `document_id` column (the rows
produced by `EmbeddingService.create_metadata` all have it): the union of
the columns is taken, and rows of an old table lacking the column get NaN
in it. -/
def concatMetadata (existing : MetaTable) (newRows : List MetaRow) : MetaTable :=
  ⟨true,
   (if existing.hasDocIdCol then existing.rows
    else existing.rows.map fun r => { r with document_id := none }) ++ newRows⟩

/-- `update_index` / `update_faiss_index(existing_index, existing_metadata,
new_embeddings, new_metadata)`.  `new_embeddings` is a rectangular
`np.ndarray`; `new_embeddings.shape[1]` raises on an empty array, and
`faiss` raises on a dimension mismatch — both exceptions are re-raised by
the function, so the embedding returns `none` there. -/
def updateFaissIndex (existingIndex : Option FaissIndex)
    (existingMetadata : MetaTable) (newEmbeddings : List Vec)
    (newMetadata : List MetaRow) : Option (FaissIndex × MetaTable) :=
  match existingIndex with
  | none =>
      match newEmbeddings with
      | [] => none
      | v :: _ =>
          match faissAdd (indexFlatIP v.length) newEmbeddings with
          | some idx => some (idx, ⟨true, newMetadata⟩)
          | none => none
  | some idx =>
      match faissAdd idx newEmbeddings with
      | some idx' => some (idx', concatMetadata existingMetadata newMetadata)
      | none => none

/-- The persisted store read and written through `GCSService`: the two
well-known blobs (serialized index, metadata CSV), `none` when the blob does
not exist. -/
structure GcsStore where
  indexBlob : Option FaissIndex
  metadataBlob : Option MetaTable
deriving DecidableEq, Repr

/-- `load_existing_index` / `load_existing_faiss_index`: returns
`(None, pd.DataFrame(), False)` when the index blob does not exist, and
otherwise the stored index together with the stored metadata (or an empty
table when only the metadata blob is missing) and `True`.  No consistency
check of any kind is performed between `faiss_index.ntotal` and
`len(metadata_df)`. -/
def loadExistingFaissIndex (store : GcsStore) :
    Option FaissIndex × MetaTable × Bool :=
  match store.indexBlob with
  | none => (none, emptyTable, false)
  | some idx =>
      let metadata := match store.metadataBlob with
        | some m => m
        | none => emptyTable
      (some idx, metadata, true)

/-- The per-artifact outcome of the two `gcs_service.upload_file` calls made
by `save_updated_index` / `save_index`: `upload_file` catches every
exception internally and reports failure by returning `False`. -/
structure UploadOutcome where
  indexUploadOk : Bool
  metadataUploadOk : Bool
deriving DecidableEq, Repr

/-- The `uploaded_files` dict returned by `save_updated_index` (a key is
present exactly when the corresponding `upload_file` returned `True`). -/
structure UploadedFiles where
  faissIndexPath : Option Str
  metadataPath : Option Str
deriving DecidableEq, Repr

/-- `save_updated_index(gcs_service, faiss_index, metadata_df)` /
`IndexManagerService.save_index`: writes the index and the CSV locally,
uploads each, and records in `uploaded_files` only the uploads that
succeeded.  A `False` return from `upload_file` is silently skipped — the
function neither raises nor reports the failure, it merely omits the key. -/
def saveUpdatedIndex (outcome : UploadOutcome) : UploadedFiles :=
  { faissIndexPath :=
      if outcome.indexUploadOk then some "embeddings/faiss_index.bin".toList
      else none,
    metadataPath :=
      if outcome.metadataUploadOk then some "metadata/metadata.csv".toList
      else none }

/-- The document lifecycle states written by `StatusService.update_status`. -/
inductive DocStatus
  | processing
  | completed
  | error
deriving DecidableEq, Repr

/-- The tail of `create_embeddings_from_chunks` (lines 419-441 of
`src/cloud_functions/create_embeddings/main.py`) for a run that reaches the
save step with a known `document_id`: it calls `save_updated_index`, never
inspects the returned `uploaded_files` dict for missing keys, and then
unconditionally marks the document `COMPLETED`. -/
def createEmbeddingsFinalStatus (outcome : UploadOutcome) : DocStatus :=
  let uploadedFiles := saveUpdatedIndex outcome
  let _ := uploadedFiles
  DocStatus.completed

/-- The per-document synchronization step of `create_embeddings_from_chunks`
(lines 391-412): remove the document's stale chunks, then append the new
embeddings and metadata (the removal call is guarded by
`if document_id and existing_index is not None`, but
`remove_old_document_chunks` itself already returns its inputs unchanged
when the index is `None`, so the two compositions agree for a non-empty
`document_id`). -/
def syncDocument (existingIndex : Option FaissIndex) (existingMetadata : MetaTable)
    (documentId : Str) (newEmbeddings : List Vec) (newMetadata : List MetaRow) :
    Option (FaissIndex × MetaTable) :=
  let r := removeOldDocumentChunks existingIndex existingMetadata documentId
  updateFaissIndex r.1 r.2.1 newEmbeddings newMetadata

/-- Spec-side description of what the post-processing pass actually does on
the pipeline's chunk lists (every one of which is `[Documento: ...]`-tagged,
so the title/section exemption of `_combine_small_chunks` can never fire):
the first chunk is kept, and every later chunk below the threshold is merged
into the last accumulated chunk.  Stated for comparison with
`combineSmallChunks`. -/
def mergeIntoPreviousAllAux (minChunkSize : Nat) :
    List Str → List Str → List Str
  | [], acc => acc
  | c :: rest, acc =>
      if countWords c < minChunkSize then
        mergeIntoPreviousAllAux minChunkSize rest (appendToLast c acc)
      else mergeIntoPreviousAllAux minChunkSize rest (acc ++ [c])

/-- See `mergeIntoPreviousAllAux`. -/
def mergeIntoPreviousAll (minChunkSize : Nat) : List Str → List Str
  | [] => []
  | c :: rest => mergeIntoPreviousAllAux minChunkSize rest [c]

/-!
## Supporting lemmas
-/

/-- `str.split(c)` never returns an empty list. -/
theorem splitOnChar_ne_nil (c : Char) (s : Str) : splitOnChar c s ≠ [] := by
  induction s with
  | nil => simp [splitOnChar]
  | cons x xs ih =>
      simp only [splitOnChar]
      split
      · simp
      · cases h : splitOnChar c xs with
        | nil => simp
        | cons h t => simp

/-- No piece of `text.split('\n')` contains a newline. -/
theorem not_mem_of_mem_splitOnChar {c : Char} {s : Str} {l : Str}
    (hl : l ∈ splitOnChar c s) : c ∉ l := by
  induction s generalizing l with
  | nil =>
      simp [splitOnChar] at hl
      simp [hl]
  | cons x xs ih =>
      by_cases hx : x = c
      · simp [splitOnChar, hx] at hl
        rcases hl with hl | hl
        · simp [hl]
        · exact ih hl
      · simp only [splitOnChar, if_neg hx] at hl
        cases h : splitOnChar c xs with
        | nil => exact absurd h (splitOnChar_ne_nil c xs)
        | cons hd tl =>
            rw [h] at hl
            rcases List.mem_cons.mp hl with hl | hl
            · subst hl
              intro hmem
              rcases List.mem_cons.mp hmem with hmem | hmem
              · exact hx hmem.symm
              · exact ih (h ▸ List.mem_cons_self hd tl) hmem
            · exact ih (h ▸ List.mem_cons_of_mem hd hl)

/-- A string matched by the page-break pattern contains a literal newline. -/
theorem mem_newline_of_matchPageBreak {l : Str} (h : matchPageBreak l = true) :
    '\n' ∈ l := by
  simp only [matchPageBreak] at h
  by_cases h1 : (l.takeWhile Char.isDigit).isEmpty
  · simp [h1] at h
  · simp only [h1, Bool.false_eq_true, if_false] at h
    by_cases h2 :
        ((l.dropWhile Char.isDigit).takeWhile isSpaceChar).getLast? = some '\n'
    · have hmem : '\n' ∈ (l.dropWhile Char.isDigit).takeWhile isSpaceChar := by
        obtain ⟨hne, heq⟩ :=
          List.mem_getLast?_eq_getLast (x := '\n') (Option.mem_def.mpr h2)
        rw [heq]
        exact List.getLast_mem hne
      exact (List.dropWhile_sublist Char.isDigit).subset
        ((List.takeWhile_sublist isSpaceChar).subset hmem)
    · simp [h2] at h

/-- The page-break pattern never matches a line produced by
`text.split('\n')`: the pattern demands an embedded newline, and no line has
one.  This makes the `page_breaks` list of `split_into_chunks` always empty
and `_split_by_pages` unreachable. -/
theorem matchPageBreak_false_on_lines {text l : Str}
    (hl : l ∈ splitOnChar '\n' text) : matchPageBreak l = false := by
  by_contra h
  exact not_mem_of_mem_splitOnChar hl
    (mem_newline_of_matchPageBreak (by simpa using h))

/-!
## Claims C2, C5, C8, C9
-/

/-- Claim C2 (code bug, evaluation at the failing input): in a run where the
index upload succeeds and the metadata upload fails (`upload_file` returns
`False`, which it does on any storage error), `save_updated_index` returns an
`uploaded_files` dict without the metadata key instead of failing, and the
caller still marks the document `COMPLETED` — the claim (and the spec) demand
that such a run must not end in a completed status. -/
theorem save_partial_failure_still_completed :
    createEmbeddingsFinalStatus ⟨true, false⟩ = DocStatus.completed ∧
    (saveUpdatedIndex ⟨true, false⟩).metadataPath = none ∧
    (saveUpdatedIndex ⟨true, false⟩).faissIndexPath ≠ none := by
  refine ⟨rfl, rfl, ?_⟩
  decide

/-- Claim C5 (counterexample): loading a store whose index holds 2 vectors
while its metadata table has 1 row returns the mismatched pair as a perfectly
normal result (`index_exists = True`), with no error of any kind — there is
no `IndexCorruptionError` (or any count check) in the load path. -/
theorem load_mismatch_returned_normally :
    loadExistingFaissIndex
        ⟨some ⟨2, [[1, 2], [3, 4]]⟩,
         some ⟨true, [⟨some "d".toList, "d.pdf".toList, []⟩]⟩⟩
      = (some ⟨2, [[1, 2], [3, 4]]⟩,
         ⟨true, [⟨some "d".toList, "d.pdf".toList, []⟩]⟩, true)
    ∧ ntotalOpt (some ⟨2, [[1, 2], [3, 4]]⟩)
        ≠ (⟨true, [⟨some "d".toList, "d.pdf".toList, []⟩]⟩ : MetaTable).rows.length := by
  exact ⟨rfl, by decide⟩

/-- Claim C5 (amended): `load_existing_faiss_index` performs no consistency
check between the index vector count and the metadata row count; whenever the
index blob exists, it returns exactly what is stored (with an empty table
substituted for a missing metadata blob) and `index_exists = True`, even when
the two counts disagree. -/
theorem load_returns_store_contents_unchecked (store : GcsStore)
    (h : store.indexBlob.isSome) :
    loadExistingFaissIndex store
      = (store.indexBlob, store.metadataBlob.getD emptyTable, true) := by
  rcases store with ⟨ib, mb⟩
  cases ib with
  | none => simp at h
  | some idx => cases mb <;> simp [loadExistingFaissIndex, Option.getD]

/-- Witness for `load_returns_store_contents_unchecked` at a concrete
mismatched store (index has one vector, metadata table is missing). -/
theorem load_returns_store_contents_unchecked_witness :
    loadExistingFaissIndex ⟨some ⟨1, [[5]]⟩, none⟩
      = (some ⟨1, [[5]]⟩, emptyTable, true) :=
  load_returns_store_contents_unchecked ⟨some ⟨1, [[5]]⟩, none⟩ (by decide)

/-- Claim C9 (counterexample at concrete inputs): on the spec's own example
text and on a multi-paragraph text that exercises the paragraph-packing
pass, changing `overlapWords` from 0 to 50 (and to 100) changes nothing in
the output — no trailing slice of the previous unit is repeated.  (The
general fact, proved as the amended claim, is that the `overlap` argument is
never read, so outputs agree for every pair of overlap values on every
input.) -/
theorem overlap_never_affects_output :
    splitIntoChunks "## Art 1.\nAAA BBB\n\n## Art 2.\nCCC".toList
        "x.pdf".toList 10 0
      = splitIntoChunks "## Art 1.\nAAA BBB\n\n## Art 2.\nCCC".toList
        "x.pdf".toList 10 50
    ∧ splitIntoChunks "aaa bbb ccc\n\nddd eee fff\n\nggg hhh iii".toList
        "y.pdf".toList 4 0
      = splitIntoChunks "aaa bbb ccc\n\nddd eee fff\n\nggg hhh iii".toList
        "y.pdf".toList 4 100
    ∧ (splitIntoChunks "aaa bbb ccc\n\nddd eee fff\n\nggg hhh iii".toList
        "y.pdf".toList 4 100).length = 1 :=
  ⟨rfl, rfl, by decide⟩

/-- Claim C9 (amended): `overlapWords` is accepted by the contract but has no
effect whatsoever on the result of `split_into_chunks`; the output always
equals the output at overlap `0`. -/
theorem splitIntoChunks_independent_of_overlap :
    ∀ (text filename : Str) (chunkSize overlap : Nat),
      splitIntoChunks text filename chunkSize overlap
        = splitIntoChunks text filename chunkSize 0 :=
  fun _ _ _ _ => rfl

/-- Claim C8 (code bug, evaluation at the failing input): the input has no
title/section/article markers and does contain a page-break marker in the
sense of the spec (the digit line `1` followed by the rule `---`: joined with
a newline they match `page_break_pattern`, as the second conjunct shows), but
because the pattern is matched against one newline-free line at a time it
never fires (third conjunct), so the text is split by paragraphs into a
single chunk instead of being split at the page boundary. -/
theorem page_break_markers_ignored :
    splitIntoChunks "Intro words here\n1\n---\nSecond page words here".toList
        "f.pdf".toList 250 50
      = ["[Documento: f.pdf] Intro words here\n1\n---\nSecond page words here".toList]
    ∧ matchPageBreak (joinNL [['1'], ['-', '-', '-']]) = true
    ∧ ((splitOnChar '\n'
          "Intro words here\n1\n---\nSecond page words here".toList).all
        fun l => !matchPageBreak l) = true := by
  exact ⟨rfl, by decide, by decide⟩

/-!
## Claims C6 and C7: the provenance tag and the small-chunk merge pass
-/

/-- Every chunk emitted by `splitLargeSectionAux` starts with the tag. -/
theorem tagged_splitLargeSectionAux (tag head : Str) (chunkSize : Nat) :
    ∀ (rest current : List Str) (curSize : Nat) (c : Str),
      c ∈ splitLargeSectionAux tag head chunkSize rest current curSize →
      ∃ r, c = tag ++ r := by
  intro rest
  induction rest with
  | nil =>
      intro current curSize c hc
      simp only [splitLargeSectionAux] at hc
      split at hc
      · simp at hc
      · rw [List.mem_singleton] at hc
        exact ⟨_, hc⟩
  | cons line rest ih =>
      intro current curSize c hc
      simp only [splitLargeSectionAux] at hc
      split at hc
      · exact ih _ _ c hc
      · rcases List.mem_cons.mp hc with hc | hc
        · exact ⟨_, hc⟩
        · exact ih _ _ c hc

/-- Every chunk emitted by `splitLargeSection` starts with the tag. -/
theorem tagged_splitLargeSection (filename : Str) (chunkSize : Nat)
    (seg : List Str) (c : Str) (hc : c ∈ splitLargeSection seg filename chunkSize) :
    ∃ r, c = docTag filename ++ r := by
  cases seg with
  | nil => simp [splitLargeSection] at hc
  | cons head rest => exact tagged_splitLargeSectionAux _ _ _ _ _ _ c hc

/-- Every chunk emitted by `splitByArticles` (and therefore also by the
identical `_split_by_sections`) starts with the tag. -/
theorem tagged_splitByArticles (lines : List Str) (idxs : List Nat)
    (filename : Str) (chunkSize : Nat) (c : Str)
    (hc : c ∈ splitByArticles lines idxs filename chunkSize) :
    ∃ r, c = docTag filename ++ r := by
  simp only [splitByArticles] at hc
  rcases List.mem_flatMap.mp hc with ⟨p, _, hp⟩
  split at hp
  · rw [List.mem_singleton] at hp
    exact ⟨_, hp⟩
  · exact tagged_splitLargeSection _ _ _ _ hp

/-- Every chunk emitted by `splitByParagraphsAux` starts with the tag. -/
theorem tagged_splitByParagraphsAux (tag : Str) (chunkSize : Nat) :
    ∀ (pars current : List Str) (curSize : Nat) (c : Str),
      c ∈ splitByParagraphsAux tag chunkSize pars current curSize →
      ∃ r, c = tag ++ r := by
  intro pars
  induction pars with
  | nil =>
      intro current curSize c hc
      simp only [splitByParagraphsAux] at hc
      split at hc
      · simp at hc
      · rw [List.mem_singleton] at hc
        exact ⟨_, hc⟩
  | cons par rest ih =>
      intro current curSize c hc
      simp only [splitByParagraphsAux] at hc
      split at hc
      · exact ih _ _ c hc
      · split at hc
        · exact ih _ _ c hc
        · rcases List.mem_cons.mp hc with hc | hc
          · exact ⟨_, hc⟩
          · exact ih _ _ c hc

/-- Every chunk emitted by `splitByParagraphs` starts with the tag. -/
theorem tagged_splitByParagraphs (text filename : Str) (chunkSize : Nat)
    (c : Str) (hc : c ∈ splitByParagraphs text filename chunkSize) :
    ∃ r, c = docTag filename ++ r :=
  tagged_splitByParagraphsAux _ _ _ _ _ c hc

/-- Every chunk emitted by `splitByPages` starts with the tag. -/
theorem tagged_splitByPages (lines : List Str) (pageBreaks : List Nat)
    (filename : Str) (chunkSize : Nat) (c : Str)
    (hc : c ∈ splitByPages lines pageBreaks filename chunkSize) :
    ∃ r, c = docTag filename ++ r := by
  simp only [splitByPages] at hc
  rcases List.mem_flatMap.mp hc with ⟨p, _, hp⟩
  split at hp
  · exact tagged_splitByParagraphs _ _ _ _ hp
  · rw [List.mem_singleton] at hp
    exact ⟨_, hp⟩

/-- `appendToLast` preserves "every element starts with the tag". -/
theorem tagged_appendToLast (tag chunk : Str) (hchunk : ∃ r, chunk = tag ++ r) :
    ∀ (acc : List Str), (∀ c ∈ acc, ∃ r, c = tag ++ r) →
      ∀ c ∈ appendToLast chunk acc, ∃ r, c = tag ++ r := by
  intro acc
  induction acc with
  | nil =>
      intro _ c hc
      rw [appendToLast, List.mem_singleton] at hc
      exact hc ▸ hchunk
  | cons x xs ih =>
      intro hacc c hc
      cases xs with
      | nil =>
          rw [appendToLast, List.mem_singleton] at hc
          obtain ⟨r, hr⟩ := hacc x (List.mem_cons_self x [])
          exact ⟨r ++ '\n' :: '\n' :: chunk, by simp [hc, hr]⟩
      | cons y ys =>
          rw [appendToLast] at hc
          rcases List.mem_cons.mp hc with hc | hc
          · obtain ⟨r, hr⟩ := hacc x (List.mem_cons_self x (y :: ys))
            exact ⟨r, by rw [hc, hr]⟩
          · exact ih (fun d hd => hacc d (List.mem_cons_of_mem x hd)) c hc

/-- `combineSmallChunksAux` preserves "every element starts with the tag". -/
theorem tagged_combineSmallChunksAux (tag : Str) (minChunkSize : Nat) :
    ∀ (chunks : List Str) (i : Nat) (acc : List Str),
      (∀ c ∈ chunks, ∃ r, c = tag ++ r) → (∀ c ∈ acc, ∃ r, c = tag ++ r) →
      ∀ c ∈ combineSmallChunksAux minChunkSize chunks i acc, ∃ r, c = tag ++ r := by
  intro chunks
  induction chunks with
  | nil =>
      intro i acc _ hacc c hc
      rw [combineSmallChunksAux] at hc
      exact hacc c hc
  | cons chunk rest ih =>
      intro i acc hin hacc c hc
      have hchunk := hin chunk (List.mem_cons_self chunk rest)
      have hrest : ∀ c ∈ rest, ∃ r, c = tag ++ r :=
        fun d hd => hin d (List.mem_cons_of_mem chunk hd)
      have happ : ∀ c ∈ acc ++ [chunk], ∃ r, c = tag ++ r := by
        intro d hd
        rcases List.mem_append.mp hd with hd | hd
        · exact hacc d hd
        · exact (List.mem_singleton.mp hd) ▸ hchunk
      rw [combineSmallChunksAux] at hc
      split at hc
      · split at hc
        · exact ih _ _ hrest happ c hc
        · exact ih _ _ hrest (tagged_appendToLast tag chunk hchunk acc hacc) c hc
      · exact ih _ _ hrest happ c hc

/-- `combineSmallChunks` preserves "every element starts with the tag". -/
theorem tagged_combineSmallChunks (tag : Str) (minChunkSize : Nat)
    (chunks : List Str) (hin : ∀ c ∈ chunks, ∃ r, c = tag ++ r) :
    ∀ c ∈ combineSmallChunks chunks minChunkSize, ∃ r, c = tag ++ r := by
  intro c hc
  rw [combineSmallChunks] at hc
  split at hc
  · exact hin c hc
  · exact tagged_combineSmallChunksAux tag minChunkSize chunks 0 [] hin
      (by simp) c hc

/-- Claim C6 (counterexample): on the spec's own example — text
`"## Art 1.\nAAA BBB\n\n## Art 2.\nCCC"`, `targetChunkWords = 10`, source
name `x.pdf` — the engine returns one chunk, not two (the second article's
chunk is below the 50-word post-processing threshold and gets merged into
the first), and the tag it carries is `[Documento: x.pdf] `, not
`[Document: x.pdf]`. -/
theorem example_yields_one_chunk_not_two :
    splitIntoChunks "## Art 1.\nAAA BBB\n\n## Art 2.\nCCC".toList
        "x.pdf".toList 10 50
      = ["[Documento: x.pdf] ## Art 1.\nAAA BBB\n\n\n[Documento: x.pdf] ## Art 2.\nCCC".toList]
    ∧ (splitIntoChunks "## Art 1.\nAAA BBB\n\n## Art 2.\nCCC".toList
        "x.pdf".toList 10 50).length ≠ 2
    ∧ (("[Document: ".toList).isPrefixOf
        "[Documento: x.pdf] ## Art 1.\nAAA BBB\n\n\n[Documento: x.pdf] ## Art 2.\nCCC".toList)
      = false := by
  refine ⟨rfl, by decide, by decide⟩

/-- Claim C6 (amended): every chunk emitted by the engine is prefixed with
the stable tag `[Documento: <basename(sourceName)>] ` (first conjunct, for
all inputs); on the spec's example the output is a single chunk carrying the
tag `[Documento: x.pdf] ` and containing both articles, the second article
having been merged into the first by the small-chunk post-processing
(second conjunct). -/
theorem every_chunk_carries_documento_tag :
    (∀ (text filename : Str) (chunkSize overlap : Nat) (c : Str),
        c ∈ splitIntoChunks text filename chunkSize overlap →
        ∃ rest, c = docTag filename ++ rest)
    ∧ splitIntoChunks "## Art 1.\nAAA BBB\n\n## Art 2.\nCCC".toList
        "x.pdf".toList 10 50
      = ["[Documento: x.pdf] ## Art 1.\nAAA BBB\n\n\n[Documento: x.pdf] ## Art 2.\nCCC".toList] := by
  constructor
  · intro text filename chunkSize overlap c hc
    simp only [splitIntoChunks] at hc
    split at hc
    · simp at hc
    · refine tagged_combineSmallChunks (docTag filename) 50 _ ?_ c hc
      intro d hd
      rw [chooseSplit] at hd
      split at hd
      · exact tagged_splitByArticles _ _ _ _ d hd
      · split at hd
        · exact tagged_splitByArticles _ _ _ _ d hd
        · split at hd
          · exact tagged_splitByPages _ _ _ _ d hd
          · exact tagged_splitByParagraphs _ _ _ d hd
  · rfl

/-- Witness for `every_chunk_carries_documento_tag`: the single chunk of the
example run starts with `docTag "x.pdf" = "[Documento: x.pdf] "`. -/
theorem every_chunk_carries_documento_tag_witness :
    ∃ rest,
      "[Documento: x.pdf] ## Art 1.\nAAA BBB\n\n\n[Documento: x.pdf] ## Art 2.\nCCC".toList
        = docTag "x.pdf".toList ++ rest :=
  every_chunk_carries_documento_tag.1
    "## Art 1.\nAAA BBB\n\n## Art 2.\nCCC".toList "x.pdf".toList 10 50 _
    (by decide)

/-- Claim C7 (counterexample): in the final chunk list of the spec's example
run, the second chunk is below the 50-word threshold and its content (after
the provenance tag) opens with the section marker `## ` — i.e. it starts a
new structural unit — yet it is merged into the chunk of the preceding
section instead of being kept separate: `_combine_small_chunks` checks its
`^`-anchored patterns against the raw chunk text, which always starts with
`[Documento: ...] `, so the exemption never fires and the merge crosses the
structural boundary. -/
theorem small_section_chunk_merged_across_boundary :
    combineSmallChunks
        ["[Documento: x.pdf] ## Art 1.\nAAA BBB\n".toList,
         "[Documento: x.pdf] ## Art 2.\nCCC".toList] 50
      = ["[Documento: x.pdf] ## Art 1.\nAAA BBB\n\n\n[Documento: x.pdf] ## Art 2.\nCCC".toList]
    ∧ countWords "[Documento: x.pdf] ## Art 2.\nCCC".toList < 50
    ∧ matchSection "## Art 2.\nCCC".toList = true
    ∧ splitByArticles (splitOnChar '\n' "## Art 1.\nAAA BBB\n\n## Art 2.\nCCC".toList)
        (markedIdxs isSectionLine
          (splitOnChar '\n' "## Art 1.\nAAA BBB\n\n## Art 2.\nCCC".toList))
        "x.pdf".toList 10
      = ["[Documento: x.pdf] ## Art 1.\nAAA BBB\n".toList,
         "[Documento: x.pdf] ## Art 2.\nCCC".toList] := by
  refine ⟨rfl, by decide, by decide, rfl⟩

/-- The loops of `_combine_small_chunks` (past index 0) and of the always-
merge description coincide when no chunk matches the anchored title/section
patterns. -/
theorem combineSmallChunksAux_eq_mergeAux (minChunkSize : Nat) :
    ∀ (chunks : List Str) (i : Nat) (acc : List Str), 0 < i →
      (∀ c ∈ chunks, matchTitle c = false ∧ matchSection c = false) →
      combineSmallChunksAux minChunkSize chunks i acc
        = mergeIntoPreviousAllAux minChunkSize chunks acc := by
  intro chunks
  induction chunks with
  | nil => intro i acc _ _; rfl
  | cons chunk rest ih =>
      intro i acc hi hmk
      obtain ⟨ht, hs⟩ := hmk chunk (List.mem_cons_self chunk rest)
      have hrest : ∀ c ∈ rest, matchTitle c = false ∧ matchSection c = false :=
        fun d hd => hmk d (List.mem_cons_of_mem chunk hd)
      rw [combineSmallChunksAux, mergeIntoPreviousAllAux]
      by_cases hsmall : countWords chunk < minChunkSize
      · have hcond : (decide (countWords chunk < minChunkSize) && decide (0 < i) &&
            !matchTitle chunk && !matchSection chunk) = true := by
          simp [hsmall, hi, ht, hs]
        rw [if_pos hcond, if_pos hsmall]
        by_cases hacc : acc.isEmpty
        · have hae : acc = [] := List.isEmpty_iff.mp hacc
          subst hae
          rw [if_pos hacc, ih _ _ (Nat.succ_pos i) hrest]
          rfl
        · rw [if_neg hacc]
          exact ih _ _ (Nat.succ_pos i) hrest
      · have hcond : ¬((decide (countWords chunk < minChunkSize) && decide (0 < i) &&
            !matchTitle chunk && !matchSection chunk) = true) := by
          simp [hsmall]
        rw [if_neg hcond, if_neg hsmall]
        exact ih _ _ (Nat.succ_pos i) hrest

/-- Claim C7 (amended): on every chunk list in which no chunk's raw text
matches the anchored title/section patterns — which is the case for every
list the pipeline feeds to `_combine_small_chunks`, since every chunk starts
with `[Documento: ...] ` — the pass merges every below-threshold chunk after
the first into the immediately preceding accumulated chunk (never forward),
with no structural-boundary protection: it equals the unconditional
merge-into-previous pass. -/
theorem combine_small_merges_unconditionally :
    ∀ (chunks : List Str) (minChunkSize : Nat),
      (∀ c ∈ chunks, matchTitle c = false ∧ matchSection c = false) →
      combineSmallChunks chunks minChunkSize
        = mergeIntoPreviousAll minChunkSize chunks := by
  intro chunks minChunkSize hmk
  cases chunks with
  | nil => rfl
  | cons chunk rest =>
      rw [combineSmallChunks, if_neg (by simp), combineSmallChunksAux,
        if_neg (by simp), mergeIntoPreviousAll]
      show combineSmallChunksAux minChunkSize rest (0 + 1) [chunk]
        = mergeIntoPreviousAllAux minChunkSize rest [chunk]
      exact combineSmallChunksAux_eq_mergeAux minChunkSize rest (0 + 1) [chunk]
        Nat.one_pos (fun d hd => hmk d (List.mem_cons_of_mem chunk hd))

/-- Witness for `combine_small_merges_unconditionally` on a concrete tagged
chunk list: the 3-word second chunk is merged into the first. -/
theorem combine_small_merges_unconditionally_witness :
    combineSmallChunks
        ["[Documento: f] one two three four\n".toList,
         "[Documento: f] five six".toList] 50
      = mergeIntoPreviousAll 50
        ["[Documento: f] one two three four\n".toList,
         "[Documento: f] five six".toList] :=
  combine_small_merges_unconditionally _ 50 (by decide)

/-!
## Claim C10: the preamble before the first marker is discarded
-/

/-- `split('\n')` distributes over an append whose seam is a newline. -/
theorem splitOnChar_append_cons (c : Char) (a b : Str) :
    splitOnChar c (a ++ c :: b) = splitOnChar c a ++ splitOnChar c b := by
  induction a with
  | nil =>
      show splitOnChar c (c :: b) = splitOnChar c [] ++ splitOnChar c b
      simp [splitOnChar]
  | cons x xs ih =>
      show splitOnChar c (x :: (xs ++ c :: b)) = _
      simp only [splitOnChar]
      by_cases hx : x = c
      · simp only [if_pos hx, List.cons_append]
        exact congrArg ([] :: ·) ih
      · simp only [if_neg hx]
        cases h : splitOnChar c xs with
        | nil => exact absurd h (splitOnChar_ne_nil c xs)
        | cons hd tl =>
            rw [ih, h]
            simp

/-- Shifting the start index of the enumeration shifts every scanned marker
index by the same amount. -/
theorem markedIdxsFrom_shift {α : Type} (q : α → Bool) :
    ∀ (b : List α) (k : Nat),
      ((List.enumFrom k b).filter (fun p => q p.2)).map Prod.fst
        = (markedIdxs q b).map (· + k) := by
  intro b
  induction b with
  | nil => intro k; rfl
  | cons y ys ih =>
      intro k
      rw [markedIdxs, List.enumFrom_cons, List.enum_cons, List.filter_cons,
        List.filter_cons]
      by_cases hy : q y
      · rw [if_pos hy, if_pos hy, List.map_cons, List.map_cons, ih (k + 1),
          ih 1, List.map_cons, List.map_map]
        congr 1
        · show k = 0 + k
          omega
        · apply List.map_congr_left
          intro i _
          show i + (k + 1) = i + 1 + k
          omega
      · rw [if_neg hy, if_neg hy, ih (k + 1), ih 1, List.map_map]
        apply List.map_congr_left
        intro i _
        show i + (k + 1) = i + 1 + k
        omega

/-- The marker scan on a cons: the head contributes index 0 when it matches,
and the tail's indices are shifted by one. -/
theorem markedIdxs_cons {α : Type} (q : α → Bool) (x : α) (xs : List α) :
    markedIdxs q (x :: xs)
      = (if q x then [0] else []) ++ (markedIdxs q xs).map (· + 1) := by
  rw [markedIdxs, List.enum_cons, List.filter_cons]
  by_cases hx : q x
  · rw [if_pos hx, if_pos hx, List.map_cons, markedIdxsFrom_shift q xs 1]
    rfl
  · rw [if_neg hx, if_neg hx, markedIdxsFrom_shift q xs 1]
    rfl

/-- The marker scan on an append: the second block's indices are shifted by
the length of the first. -/
theorem markedIdxs_append {α : Type} (q : α → Bool) (a b : List α) :
    markedIdxs q (a ++ b)
      = markedIdxs q a ++ (markedIdxs q b).map (· + a.length) := by
  induction a with
  | nil => simp [markedIdxs]
  | cons x xs ih =>
      rw [List.cons_append, markedIdxs_cons, ih, markedIdxs_cons,
        List.map_append, List.map_map, List.append_assoc]
      refine congrArg (fun t =>
        (if q x = true then [0] else []) ++ ((markedIdxs q xs).map (· + 1) ++ t)) ?_
      apply List.map_congr_left
      intro i _
      show i + xs.length + 1 = i + (x :: xs).length
      simp only [List.length_cons]
      omega

/-- A block with no marked line contributes no indices. -/
theorem markedIdxs_eq_nil {α : Type} (q : α → Bool) (a : List α)
    (h : ∀ l ∈ a, q l = false) : markedIdxs q a = [] := by
  induction a with
  | nil => rfl
  | cons x xs ih =>
      rw [markedIdxs_cons, ih (fun l hl => h l (List.mem_cons_of_mem x hl))]
      simp [h x (List.mem_cons_self x xs)]

/-- `consecPairs` commutes with a uniform index shift. -/
theorem consecPairs_map (k : Nat) :
    ∀ (l : List Nat), consecPairs (l.map (· + k))
      = (consecPairs l).map (fun p => (p.1 + k, p.2 + k)) := by
  intro l
  induction l with
  | nil => rfl
  | cons a t ih =>
      cases t with
      | nil => rfl
      | cons b t2 =>
          show (a + k, b + k) :: consecPairs ((b :: t2).map (· + k))
            = ((a, b) :: consecPairs (b :: t2)).map (fun p => (p.1 + k, p.2 + k))
          rw [ih]
          simp

/-- Splitting at uniformly shifted indices in a uniformly prefixed line list
gives the same chunks: the article/section split never looks at the lines
before the first index.  (`preL.length` is the shift.) -/
theorem splitByArticles_shift (preL restL : List Str) (idxs : List Nat)
    (filename : Str) (chunkSize : Nat) :
    splitByArticles (preL ++ restL) (idxs.map (· + preL.length)) filename chunkSize
      = splitByArticles restL idxs filename chunkSize := by
  unfold splitByArticles
  have h1 : idxs.map (· + preL.length) ++ [(preL ++ restL).length]
      = (idxs ++ [restL.length]).map (· + preL.length) := by
    rw [List.map_append]
    simp [List.length_append, Nat.add_comm]
  rw [h1, consecPairs_map, List.flatMap_map]
  apply List.flatMap_congr
  intro p _
  have hseg : sliceLines (preL ++ restL) (p.1 + preL.length) (p.2 + preL.length)
      = sliceLines restL p.1 p.2 := by
    unfold sliceLines
    rw [Nat.add_comm p.1, Nat.add_comm p.2, List.drop_append]
    congr 1
    omega
  show (fun p => if countWords (joinNL (sliceLines (preL ++ restL) p.1 p.2)) ≤ chunkSize
      then [docTag filename ++ joinNL (sliceLines (preL ++ restL) p.1 p.2)]
      else splitLargeSection (sliceLines (preL ++ restL) p.1 p.2) filename chunkSize)
        (p.1 + preL.length, p.2 + preL.length)
    = _
  dsimp only
  rw [hseg]

/-- When the text has article markers, `split_into_chunks` takes the article
branch. -/
theorem splitIntoChunks_of_articles (text filename : Str)
    (chunkSize overlap : Nat) (hne : text.isEmpty = false)
    (hart : markedIdxs isArticleLine (splitOnChar '\n' text) ≠ []) :
    splitIntoChunks text filename chunkSize overlap
      = combineSmallChunks
          (splitByArticles (splitOnChar '\n' text)
            (markedIdxs isArticleLine (splitOnChar '\n' text)) filename chunkSize)
          50 := by
  rw [splitIntoChunks, if_neg (by simp [hne]), chooseSplit,
    if_pos (by simp [hart])]

/-- When the text has no article markers but has section/title markers,
`split_into_chunks` takes the section branch (which runs the same splitting
code as the article branch). -/
theorem splitIntoChunks_of_sections (text filename : Str)
    (chunkSize overlap : Nat) (hne : text.isEmpty = false)
    (hnoart : markedIdxs isArticleLine (splitOnChar '\n' text) = [])
    (hsect : markedIdxs isSectionLine (splitOnChar '\n' text) ≠ []) :
    splitIntoChunks text filename chunkSize overlap
      = combineSmallChunks
          (splitByArticles (splitOnChar '\n' text)
            (markedIdxs isSectionLine (splitOnChar '\n' text)) filename chunkSize)
          50 := by
  rw [splitIntoChunks, if_neg (by simp [hne]), chooseSplit,
    if_neg (by simp [hnoart]), if_pos (by simp [hsect])]

/-- Claim C10: the article and section split loops start at the first marker
index, so every line before the first marker is silently discarded.  Both
parts state this as an invariance: prepending any marker-free preamble (plus
the joining newline) to a text whose first line is a marker line does not
change the output at all — the preamble's lines are absent from every
emitted chunk.  Part one covers the article branch (preamble lines are not
article markers; the rest's first line is one); part two covers the
section/title branch of a document with no article markers at all. -/
theorem preamble_before_first_marker_discarded :
    (∀ (preText restText filename : Str) (chunkSize overlap : Nat),
        (∀ l ∈ splitOnChar '\n' preText, isArticleLine l = false) →
        isArticleLine ((splitOnChar '\n' restText).headD []) = true →
        splitIntoChunks (preText ++ '\n' :: restText) filename chunkSize overlap
          = splitIntoChunks restText filename chunkSize overlap)
    ∧ (∀ (preText restText filename : Str) (chunkSize overlap : Nat),
        (∀ l ∈ splitOnChar '\n' preText,
          isArticleLine l = false ∧ isSectionLine l = false) →
        (∀ l ∈ splitOnChar '\n' restText, isArticleLine l = false) →
        isSectionLine ((splitOnChar '\n' restText).headD []) = true →
        splitIntoChunks (preText ++ '\n' :: restText) filename chunkSize overlap
          = splitIntoChunks restText filename chunkSize overlap) := by
  constructor
  · intro preText restText filename chunkSize overlap hpre hhead
    cases hrl : splitOnChar '\n' restText with
    | nil => exact absurd hrl (splitOnChar_ne_nil '\n' restText)
    | cons h0 t0 =>
        rw [hrl] at hhead
        have hh : isArticleLine h0 = true := hhead
        have hrne : restText.isEmpty = false := by
          cases restText with
          | nil =>
              have : h0 = [] := by
                have := hrl
                simp [splitOnChar] at this
                exact this.1
              rw [this] at hh
              exact absurd hh (by decide)
          | cons _ _ => rfl
        have hfne : (preText ++ '\n' :: restText).isEmpty = false := by
          cases preText <;> rfl
        have hlines : splitOnChar '\n' (preText ++ '\n' :: restText)
            = splitOnChar '\n' preText ++ splitOnChar '\n' restText :=
          splitOnChar_append_cons '\n' preText restText
        have hridx : markedIdxs isArticleLine (splitOnChar '\n' restText) ≠ [] := by
          rw [hrl, markedIdxs_cons, hh]
          simp
        have hfullidx : markedIdxs isArticleLine
            (splitOnChar '\n' (preText ++ '\n' :: restText))
            = (markedIdxs isArticleLine (splitOnChar '\n' restText)).map
                (· + (splitOnChar '\n' preText).length) := by
          rw [hlines, markedIdxs_append, markedIdxs_eq_nil _ _ hpre,
            List.nil_append]
        have hfullne : markedIdxs isArticleLine
            (splitOnChar '\n' (preText ++ '\n' :: restText)) ≠ [] := by
          rw [hfullidx]
          simp [hridx]
        rw [splitIntoChunks_of_articles _ _ _ _ hfne hfullne,
          splitIntoChunks_of_articles _ _ _ _ hrne hridx]
        rw [hfullidx, hlines, splitByArticles_shift]
  · intro preText restText filename chunkSize overlap hpre hrestart hhead
    cases hrl : splitOnChar '\n' restText with
    | nil => exact absurd hrl (splitOnChar_ne_nil '\n' restText)
    | cons h0 t0 =>
        rw [hrl] at hhead
        have hh : isSectionLine h0 = true := hhead
        have hrne : restText.isEmpty = false := by
          cases restText with
          | nil =>
              have : h0 = [] := by
                have := hrl
                simp [splitOnChar] at this
                exact this.1
              rw [this] at hh
              exact absurd hh (by decide)
          | cons _ _ => rfl
        have hfne : (preText ++ '\n' :: restText).isEmpty = false := by
          cases preText <;> rfl
        have hlines : splitOnChar '\n' (preText ++ '\n' :: restText)
            = splitOnChar '\n' preText ++ splitOnChar '\n' restText :=
          splitOnChar_append_cons '\n' preText restText
        have hrnoart : markedIdxs isArticleLine (splitOnChar '\n' restText) = [] :=
          markedIdxs_eq_nil _ _ hrestart
        have hfnoart : markedIdxs isArticleLine
            (splitOnChar '\n' (preText ++ '\n' :: restText)) = [] := by
          rw [hlines, markedIdxs_append,
            markedIdxs_eq_nil _ _ (fun l hl => (hpre l hl).1), hrnoart]
          rfl
        have hridx : markedIdxs isSectionLine (splitOnChar '\n' restText) ≠ [] := by
          rw [hrl, markedIdxs_cons, hh]
          simp
        have hfullidx : markedIdxs isSectionLine
            (splitOnChar '\n' (preText ++ '\n' :: restText))
            = (markedIdxs isSectionLine (splitOnChar '\n' restText)).map
                (· + (splitOnChar '\n' preText).length) := by
          rw [hlines, markedIdxs_append,
            markedIdxs_eq_nil _ _ (fun l hl => (hpre l hl).2), List.nil_append]
        have hfullne : markedIdxs isSectionLine
            (splitOnChar '\n' (preText ++ '\n' :: restText)) ≠ [] := by
          rw [hfullidx]
          simp [hridx]
        rw [splitIntoChunks_of_sections _ _ _ _ hfne hfnoart hfullne,
          splitIntoChunks_of_sections _ _ _ _ hrne hrnoart hridx]
        rw [hfullidx, hlines, splitByArticles_shift]

/-- Witness for `preamble_before_first_marker_discarded`: a two-line
preamble before a document whose first line is `### Art. 1` is dropped
without changing the output. -/
theorem preamble_before_first_marker_discarded_witness :
    splitIntoChunks
        ("intro line\nmore intro".toList ++ '\n' ::
          "### Art. 1\ncontent words".toList)
        "x.pdf".toList 250 50
      = splitIntoChunks "### Art. 1\ncontent words".toList "x.pdf".toList 250 50 :=
  preamble_before_first_marker_discarded.1 "intro line\nmore intro".toList
    "### Art. 1\ncontent words".toList "x.pdf".toList 250 50
    (by decide) (by decide)

/-!
## Claims C1, C3, C4: bridge lemmas for the removal/append algebra
-/

/-- Index 0 is scanned on a cons exactly when the head matches. -/
theorem zero_mem_markedIdxs_iff {α : Type} (q : α → Bool) (x : α)
    (xs : List α) : 0 ∈ markedIdxs q (x :: xs) ↔ q x = true := by
  rw [markedIdxs_cons]
  by_cases hx : q x <;> simp [hx]

/-- Index `i + 1` is scanned on a cons exactly when `i` is scanned on the
tail. -/
theorem succ_mem_markedIdxs_iff {α : Type} (q : α → Bool) (x : α)
    (xs : List α) (i : Nat) :
    (i + 1) ∈ markedIdxs q (x :: xs) ↔ i ∈ markedIdxs q xs := by
  rw [markedIdxs_cons]
  by_cases hx : q x <;> simp [hx]

/-- When every element matches, the scan returns every position. -/
theorem markedIdxs_all_true {α : Type} (q : α → Bool) :
    ∀ (xs : List α), (∀ x ∈ xs, q x = true) →
      markedIdxs q xs = List.range xs.length := by
  intro xs
  induction xs with
  | nil => intro _; rfl
  | cons x xst ih =>
      intro h
      rw [markedIdxs_cons, if_pos (h x (List.mem_cons_self x xst)),
        ih (fun y hy => h y (List.mem_cons_of_mem x hy)), List.length_cons,
        List.range_succ_eq_map]
      rfl

/-- An empty scan means no element matches. -/
theorem markedIdxs_nil_forall {α : Type} (q : α → Bool) :
    ∀ (xs : List α), markedIdxs q xs = [] → ∀ x ∈ xs, q x = false := by
  intro xs
  induction xs with
  | nil => intro _ x hx; simp at hx
  | cons y ys ih =>
      intro h x hx
      rw [markedIdxs_cons] at h
      rcases List.append_eq_nil.mp h with ⟨h1, h2⟩
      have hy : q y = false := by
        by_cases hqy : q y
        · rw [if_pos hqy] at h1; simp at h1
        · simpa using hqy
      rcases List.mem_cons.mp hx with hx | hx
      · rw [hx]; exact hy
      · exact ih (List.map_eq_nil_iff.mp h2) x hx

/-- Core bridge: selecting (via `get?`) the positions that survive the
removal scan out of an aligned companion list is the same as filtering the
zipped pairs by the row predicate and projecting.  This is exactly the
numpy step `all_vectors[remaining_indices]` of the index rebuild. -/
theorem remaining_filterMap {α : Type} (P : MetaRow → Bool) :
    ∀ (rows : List MetaRow) (xs : List α), xs.length = rows.length →
      ((List.range rows.length).filter
          (fun i => decide (i ∉ markedIdxs P rows))).filterMap
        (fun i => xs.get? i)
      = ((xs.zip rows).filter (fun e => !(P e.2))).map Prod.fst := by
  intro rows
  induction rows with
  | nil =>
      intro xs hlen
      rw [List.length_eq_zero.mp hlen]
      rfl
  | cons r rs ih =>
      intro xs hlen
      cases xs with
      | nil => simp at hlen
      | cons x xst =>
          have hlen' : xst.length = rs.length := by simpa using hlen
          have htail : ((List.range rs.length).map (· + 1)).filter
              (fun i => decide (i ∉ markedIdxs P (r :: rs)))
              = ((List.range rs.length).filter
                  (fun i => decide (i ∉ markedIdxs P rs))).map (· + 1) := by
            rw [List.filter_map]
            congr 1
            apply List.filter_congr
            intro i _
            simp [Function.comp, succ_mem_markedIdxs_iff]
          have hmapped : (((List.range rs.length).filter
              (fun i => decide (i ∉ markedIdxs P rs))).map (· + 1)).filterMap
                (fun i => (x :: xst).get? i)
              = ((List.range rs.length).filter
                  (fun i => decide (i ∉ markedIdxs P rs))).filterMap
                (fun i => xst.get? i) := by
            rw [List.filterMap_map]
            apply List.filterMap_congr
            intro i _
            rfl
          rw [List.length_cons, List.range_succ_eq_map, List.filter_cons]
          by_cases hr : P r = true
          · rw [if_neg (by simp [zero_mem_markedIdxs_iff, hr]), htail, hmapped,
              ih xst hlen', List.zip_cons_cons, List.filter_cons,
              if_neg (by simp [hr])]
          · rw [if_pos (by simp [zero_mem_markedIdxs_iff, hr]),
              List.filterMap_cons, List.get?_cons_zero, htail, hmapped,
              ih xst hlen', List.zip_cons_cons, List.filter_cons,
              if_pos (by simp [hr])]
            rfl

/-- Projecting the second components of the filtered zip recovers the
filtered row list (alignment required). -/
theorem filter_zip_snd {α : Type} (P : MetaRow → Bool) :
    ∀ (xs : List α) (rows : List MetaRow), xs.length = rows.length →
      ((xs.zip rows).filter (fun e => !(P e.2))).map Prod.snd
        = rows.filter (fun r => !(P r)) := by
  intro xs
  induction xs with
  | nil =>
      intro rows hlen
      rw [(List.length_eq_zero.mp hlen.symm : rows = [])]
      rfl
  | cons x xst ih =>
      intro rows hlen
      cases rows with
      | nil => simp at hlen
      | cons r rs =>
          have hlen' : xst.length = rs.length := by simpa using hlen
          rw [List.zip_cons_cons, List.filter_cons, List.filter_cons]
          by_cases hr : P r = true
          · rw [if_neg (by simp [hr]), if_neg (by simp [hr]), ih rs hlen']
          · rw [if_pos (by simp [hr]), if_pos (by simp [hr]), List.map_cons,
              ih rs hlen']

/-- The diagonal case of `remaining_filterMap`: selecting the surviving rows
themselves is filtering the row list. -/
theorem filter_zip_diag (P : MetaRow → Bool) :
    ∀ (rows : List MetaRow),
      ((rows.zip rows).filter (fun e => !(P e.2))).map Prod.fst
        = rows.filter (fun r => !(P r)) := by
  intro rows
  induction rows with
  | nil => rfl
  | cons r rs ih =>
      rw [List.zip_cons_cons, List.filter_cons, List.filter_cons]
      by_cases hr : P r = true
      · rw [if_neg (by simp [hr]), if_neg (by simp [hr]), ih]
      · rw [if_pos (by simp [hr]), if_pos (by simp [hr]), List.map_cons, ih]

/-- `get?`-selection over in-range positions loses nothing. -/
theorem filterMap_get?_length {α : Type} :
    ∀ (idxs : List Nat) (l : List α), (∀ i ∈ idxs, i < l.length) →
      (idxs.filterMap (fun i => l.get? i)).length = idxs.length := by
  intro idxs l h
  induction idxs with
  | nil => rfl
  | cons i is ih =>
      rw [List.filterMap_cons]
      have hi : i < l.length := h i (List.mem_cons_self i is)
      have hsome : (l.get? i).isSome := by simp [List.get?_eq_getElem?, hi]
      obtain ⟨a, ha⟩ := Option.isSome_iff_exists.mp hsome
      rw [ha, List.length_cons, ih (fun j hj => h j (List.mem_cons_of_mem i hj))]
      rfl

/-- The survivors list is empty exactly when every row matches the removal
predicate. -/
theorem remaining_eq_nil_iff (P : MetaRow → Bool) (rows : List MetaRow) :
    ((List.range rows.length).filter (fun i => decide (i ∉ markedIdxs P rows)) = [])
      ↔ rows.filter (fun r => !(P r)) = [] := by
  have heq := remaining_filterMap P rows rows rfl
  rw [filter_zip_diag P rows] at heq
  constructor
  · intro h
    rw [h] at heq
    exact heq.symm
  · intro h
    rw [h] at heq
    have hlen := filterMap_get?_length
      ((List.range rows.length).filter (fun i => decide (i ∉ markedIdxs P rows)))
      rows (fun i hi => List.mem_range.mp (List.mem_filter.mp hi).1)
    rw [heq] at hlen
    exact List.length_eq_zero.mp hlen.symm

/-- The fallback never removes the `document_id` column. -/
theorem applyDocIdFallback_hasCol (m : MetaTable) :
    (applyDocIdFallback m).hasDocIdCol = true := by
  unfold applyDocIdFallback
  by_cases h : m.hasDocIdCol
  · rw [if_pos h]; exact h
  · rw [if_neg h]

/-- The fallback is the identity on tables that already have the column. -/
theorem applyDocIdFallback_of_hasCol (m : MetaTable) (h : m.hasDocIdCol = true) :
    applyDocIdFallback m = m := by
  unfold applyDocIdFallback
  rw [if_pos h]

/-- The fallback does not change the number of rows. -/
theorem applyDocIdFallback_length (m : MetaTable) :
    (applyDocIdFallback m).rows.length = m.rows.length := by
  unfold applyDocIdFallback
  by_cases h : m.hasDocIdCol
  · rw [if_pos h]
  · rw [if_neg h]; exact List.length_map ..

/-- Removal, branch 1: nothing to do on an empty metadata table. -/
theorem removeOld_empty_rows (idx : FaissIndex) (meta : MetaTable)
    (documentId : Str) (h : meta.rows = []) :
    removeOldDocumentChunks (some idx) meta documentId = (some idx, meta, []) := by
  rw [removeOldDocumentChunks, if_pos (by simp [h])]

/-- Removal, branch 2: no row of the (column-completed) table matches the
document id, so the inputs are returned with only the in-place column
mutation applied. -/
theorem removeOld_no_match (idx : FaissIndex) (meta : MetaTable)
    (documentId : Str) (h1 : meta.rows ≠ [])
    (h2 : chunksToRemove (applyDocIdFallback meta) documentId = []) :
    removeOldDocumentChunks (some idx) meta documentId
      = (some idx, applyDocIdFallback meta, []) := by
  rw [removeOldDocumentChunks, if_neg (by simp [h1]), if_pos (by simp [h2])]

/-- Removal, branch 3: every row belongs to the document, so the store is
emptied. -/
theorem removeOld_all_match (idx : FaissIndex) (meta : MetaTable)
    (documentId : Str) (h1 : meta.rows ≠ [])
    (h2 : chunksToRemove (applyDocIdFallback meta) documentId ≠ [])
    (h3 : (applyDocIdFallback meta).rows.filter
        (fun r => !(rowMatches documentId r)) = []) :
    removeOldDocumentChunks (some idx) meta documentId
      = (none, emptyTable, chunksToRemove (applyDocIdFallback meta) documentId) := by
  have hrem : remainingIndices (applyDocIdFallback meta) documentId = [] := by
    unfold remainingIndices chunksToRemove
    exact (remaining_eq_nil_iff (rowMatches documentId)
      (applyDocIdFallback meta).rows).mpr h3
  rw [removeOldDocumentChunks, if_neg (by simp [h1]), if_neg (by simp [h2]),
    if_pos (by simp [hrem])]

/-- Removal, branch 4 (the rebuild): some but not all rows belong to the
document; under the FAISS representation invariant and the row-alignment
precondition the rebuild succeeds and keeps exactly the other documents'
vector/row pairs, in their original order. -/
theorem removeOld_rebuild (idx : FaissIndex) (meta : MetaTable)
    (documentId : Str) (h1 : meta.rows ≠ [])
    (h2 : chunksToRemove (applyDocIdFallback meta) documentId ≠ [])
    (h3 : (applyDocIdFallback meta).rows.filter
        (fun r => !(rowMatches documentId r)) ≠ [])
    (hal : idx.vecs.length = meta.rows.length) (hwf : WfIndex idx) :
    removeOldDocumentChunks (some idx) meta documentId
      = (some ⟨idx.d,
            ((idx.vecs.zip (applyDocIdFallback meta).rows).filter
              (fun e => !(rowMatches documentId e.2))).map Prod.fst⟩,
         ⟨(applyDocIdFallback meta).hasDocIdCol,
          (applyDocIdFallback meta).rows.filter
            (fun r => !(rowMatches documentId r))⟩,
         chunksToRemove (applyDocIdFallback meta) documentId) := by
  have hal1 : idx.vecs.length = (applyDocIdFallback meta).rows.length := by
    rw [applyDocIdFallback_length]; exact hal
  have hrem : remainingIndices (applyDocIdFallback meta) documentId ≠ [] := by
    unfold remainingIndices chunksToRemove
    rw [Ne, remaining_eq_nil_iff (rowMatches documentId)]
    exact h3
  have hvecs : (remainingIndices (applyDocIdFallback meta) documentId).filterMap
      (fun i => idx.vecs.get? i)
      = ((idx.vecs.zip (applyDocIdFallback meta).rows).filter
          (fun e => !(rowMatches documentId e.2))).map Prod.fst := by
    unfold remainingIndices chunksToRemove
    exact remaining_filterMap (rowMatches documentId)
      (applyDocIdFallback meta).rows idx.vecs hal1
  have hrows : (remainingIndices (applyDocIdFallback meta) documentId).filterMap
      (fun i => (applyDocIdFallback meta).rows.get? i)
      = (applyDocIdFallback meta).rows.filter
          (fun r => !(rowMatches documentId r)) := by
    unfold remainingIndices chunksToRemove
    have := remaining_filterMap (rowMatches documentId)
      (applyDocIdFallback meta).rows (applyDocIdFallback meta).rows rfl
    rw [filter_zip_diag] at this
    exact this
  have hgate : (remainingIndices (applyDocIdFallback meta) documentId).all
      (fun i => decide (i < idx.vecs.length)) = true := by
    rw [List.all_eq_true]
    intro i hi
    have hi2 : i < (applyDocIdFallback meta).rows.length := by
      unfold remainingIndices at hi
      exact List.mem_range.mp (List.mem_filter.mp hi).1
    simp [hal1, hi2]
  have hadd : faissAdd (indexFlatIP idx.d)
      (((idx.vecs.zip (applyDocIdFallback meta).rows).filter
        (fun e => !(rowMatches documentId e.2))).map Prod.fst)
      = some ⟨idx.d,
          ((idx.vecs.zip (applyDocIdFallback meta).rows).filter
            (fun e => !(rowMatches documentId e.2))).map Prod.fst⟩ := by
    unfold faissAdd indexFlatIP
    rw [if_pos]
    · rfl
    · rw [List.all_eq_true]
      intro v hv
      rcases List.mem_map.mp hv with ⟨e, he, hev⟩
      have he2 : e ∈ idx.vecs.zip (applyDocIdFallback meta).rows :=
        (List.mem_filter.mp he).1
      have : e.1 ∈ idx.vecs := by
        rcases e with ⟨a, b⟩
        exact (List.of_mem_zip he2).1
      simp [← hev, hwf e.1 this]
  rw [removeOldDocumentChunks, if_neg (by simp [h1]), if_neg (by simp [h2]),
    if_neg (by simp [hrem]), hvecs, hadd, hrows, if_pos hgate]

/-- What a successful `update_faiss_index` on a missing index did: a fresh
index holding exactly the new vectors (whose dimensions all agree), paired
with exactly the new metadata rows. -/
theorem updateFaissIndex_none_spec (meta : MetaTable) (nv : List Vec)
    (nr : List MetaRow) (idx' : FaissIndex) (meta' : MetaTable)
    (h : updateFaissIndex none meta nv nr = some (idx', meta')) :
    idx'.vecs = nv ∧ meta' = ⟨true, nr⟩ ∧ (∀ v ∈ nv, v.length = idx'.d)
      ∧ nv ≠ [] := by
  cases nv with
  | nil => exact absurd h (by simp [updateFaissIndex])
  | cons v vt =>
      cases hadd : faissAdd (indexFlatIP v.length) (v :: vt) with
      | none =>
          simp only [updateFaissIndex, hadd] at h
          exact Option.noConfusion h
      | some idx2 =>
          simp only [updateFaissIndex, hadd, Option.some.injEq,
            Prod.mk.injEq] at h
          obtain ⟨h1, h2⟩ := h
          subst h1 h2
          unfold faissAdd at hadd
          split at hadd
          · rename_i hc
            have hidx2 := Option.some.inj hadd
            subst hidx2
            refine ⟨by simp [indexFlatIP], rfl, ?_, by simp⟩
            intro w hw
            exact of_decide_eq_true (List.all_eq_true.mp hc w hw)
          · exact Option.noConfusion hadd

/-- What a successful `update_faiss_index` on an existing index did: the new
vectors (all of the index dimension) are appended in place and the metadata
tables are concatenated. -/
theorem updateFaissIndex_some_spec (idx : FaissIndex) (meta : MetaTable)
    (nv : List Vec) (nr : List MetaRow) (idx' : FaissIndex) (meta' : MetaTable)
    (h : updateFaissIndex (some idx) meta nv nr = some (idx', meta')) :
    idx' = ⟨idx.d, idx.vecs ++ nv⟩ ∧ meta' = concatMetadata meta nr
      ∧ ∀ v ∈ nv, v.length = idx.d := by
  cases hadd : faissAdd idx nv with
  | none =>
      simp only [updateFaissIndex, hadd] at h
      exact Option.noConfusion h
  | some idx2 =>
      simp only [updateFaissIndex, hadd, Option.some.injEq, Prod.mk.injEq] at h
      obtain ⟨h1, h2⟩ := h
      subst h1 h2
      unfold faissAdd at hadd
      split at hadd
      · rename_i hc
        have hidx2 := Option.some.inj hadd
        subst hidx2
        exact ⟨rfl, rfl,
          fun w hw => of_decide_eq_true (List.all_eq_true.mp hc w hw)⟩
      · exact Option.noConfusion hadd

/-- `remove_old_document_chunks` keeps the index vector count equal to the
metadata row count. -/
theorem removeOld_preserves_alignment (existingIndex : Option FaissIndex)
    (meta : MetaTable) (documentId : Str) (hwf : WfIndexOpt existingIndex)
    (hal : ntotalOpt existingIndex = meta.rows.length) :
    ntotalOpt (removeOldDocumentChunks existingIndex meta documentId).1
      = (removeOldDocumentChunks existingIndex meta documentId).2.1.rows.length := by
  cases existingIndex with
  | none =>
      rw [removeOldDocumentChunks, if_pos (by simp)]
      exact hal
  | some idx =>
      have hal' : idx.vecs.length = meta.rows.length := hal
      by_cases h1 : meta.rows = []
      · rw [removeOld_empty_rows idx meta documentId h1]
        exact hal
      · by_cases h2 : chunksToRemove (applyDocIdFallback meta) documentId = []
        · rw [removeOld_no_match idx meta documentId h1 h2]
          show idx.vecs.length = (applyDocIdFallback meta).rows.length
          rw [applyDocIdFallback_length]
          exact hal'
        · by_cases h3 : (applyDocIdFallback meta).rows.filter
              (fun r => !(rowMatches documentId r)) = []
          · rw [removeOld_all_match idx meta documentId h1 h2 h3]
            rfl
          · rw [removeOld_rebuild idx meta documentId h1 h2 h3 hal' hwf]
            show (((idx.vecs.zip (applyDocIdFallback meta).rows).filter
              (fun e => !(rowMatches documentId e.2))).map Prod.fst).length = _
            have hsnd := filter_zip_snd (rowMatches documentId) idx.vecs
              (applyDocIdFallback meta).rows
              (by rw [applyDocIdFallback_length]; exact hal')
            rw [List.length_map, ← hsnd, List.length_map]

/-- `update_faiss_index` keeps the index vector count equal to the metadata
row count whenever it returns (an aligned new batch appended to an aligned
store). -/
theorem update_preserves_alignment (existingIndex : Option FaissIndex)
    (meta : MetaTable) (nv : List Vec) (nr : List MetaRow) (idx' : FaissIndex)
    (meta' : MetaTable) (hal : ntotalOpt existingIndex = meta.rows.length)
    (hlen : nv.length = nr.length)
    (h : updateFaissIndex existingIndex meta nv nr = some (idx', meta')) :
    idx'.vecs.length = meta'.rows.length := by
  cases existingIndex with
  | none =>
      obtain ⟨hv, hm, _, _⟩ := updateFaissIndex_none_spec meta nv nr idx' meta' h
      rw [hv, hm]
      exact hlen
  | some idx =>
      obtain ⟨hi, hm, _⟩ := updateFaissIndex_some_spec idx meta nv nr idx' meta' h
      have hal' : idx.vecs.length = meta.rows.length := hal
      rw [hi, hm]
      show (idx.vecs ++ nv).length = (concatMetadata meta nr).rows.length
      unfold concatMetadata
      by_cases hc : meta.hasDocIdCol
      · rw [if_pos hc]
        simp [List.length_append, hal', hlen]
      · rw [if_neg hc]
        simp [List.length_append, hal', hlen]

/-- The whole per-document synchronization step preserves alignment. -/
theorem sync_preserves_alignment (existingIndex : Option FaissIndex)
    (meta : MetaTable) (documentId : Str) (nv : List Vec) (nr : List MetaRow)
    (idx' : FaissIndex) (meta' : MetaTable) (hwf : WfIndexOpt existingIndex)
    (hal : ntotalOpt existingIndex = meta.rows.length)
    (hlen : nv.length = nr.length)
    (h : syncDocument existingIndex meta documentId nv nr = some (idx', meta')) :
    idx'.vecs.length = meta'.rows.length := by
  unfold syncDocument at h
  exact update_preserves_alignment _ _ _ _ _ _
    (removeOld_preserves_alignment existingIndex meta documentId hwf hal) hlen h

/-- Claim C1: for every well-formed index/metadata pair with
`index.size == metadata.row_count` (`WfIndexOpt` is the FAISS representation
invariant — every stored vector has the index dimension, which is true of
every real `IndexFlatIP`), `remove_old_document_chunks` returns an aligned
pair (first conjunct), a successful `update_faiss_index` of an aligned batch
returns an aligned pair (second conjunct), and hence the pair handed to
`save_updated_index` by a successful run of the remove-then-append sequence
is aligned: the persisted vector count equals the persisted row count
(third conjunct). -/
theorem row_alignment_invariant :
    (∀ (existingIndex : Option FaissIndex) (meta : MetaTable) (documentId : Str),
        WfIndexOpt existingIndex →
        ntotalOpt existingIndex = meta.rows.length →
        ntotalOpt (removeOldDocumentChunks existingIndex meta documentId).1
          = (removeOldDocumentChunks existingIndex meta documentId).2.1.rows.length)
    ∧ (∀ (existingIndex : Option FaissIndex) (meta : MetaTable) (nv : List Vec)
        (nr : List MetaRow) (idx' : FaissIndex) (meta' : MetaTable),
        ntotalOpt existingIndex = meta.rows.length →
        nv.length = nr.length →
        updateFaissIndex existingIndex meta nv nr = some (idx', meta') →
        idx'.vecs.length = meta'.rows.length)
    ∧ (∀ (existingIndex : Option FaissIndex) (meta : MetaTable) (documentId : Str)
        (nv : List Vec) (nr : List MetaRow) (idx' : FaissIndex) (meta' : MetaTable),
        WfIndexOpt existingIndex →
        ntotalOpt existingIndex = meta.rows.length →
        nv.length = nr.length →
        syncDocument existingIndex meta documentId nv nr = some (idx', meta') →
        idx'.vecs.length = meta'.rows.length) :=
  ⟨removeOld_preserves_alignment,
   fun i m nv nr idx' meta' => update_preserves_alignment i m nv nr idx' meta',
   fun i m d nv nr idx' meta' => sync_preserves_alignment i m d nv nr idx' meta'⟩

/-- Witness for `row_alignment_invariant`: a concrete aligned store with two
documents stays aligned through a full remove-then-append run of `doc1`. -/
theorem row_alignment_invariant_witness :
    (FaissIndex.mk 2 [[3, 4], [7, 8], [9, 10]]).vecs.length
      = (MetaTable.mk true
          [⟨some "doc2".toList, "doc2.pdf".toList, []⟩,
           ⟨some "doc1".toList, "doc1.pdf".toList, []⟩,
           ⟨some "doc1".toList, "doc1.pdf".toList, []⟩]).rows.length :=
  row_alignment_invariant.2.2 (some ⟨2, [[1, 2], [3, 4], [5, 6]]⟩)
    ⟨true, [⟨some "doc1".toList, "doc1.pdf".toList, []⟩,
            ⟨some "doc2".toList, "doc2.pdf".toList, []⟩,
            ⟨some "doc1".toList, "doc1.pdf".toList, []⟩]⟩
    "doc1".toList [[7, 8], [9, 10]]
    [⟨some "doc1".toList, "doc1.pdf".toList, []⟩,
     ⟨some "doc1".toList, "doc1.pdf".toList, []⟩]
    ⟨2, [[3, 4], [7, 8], [9, 10]]⟩
    ⟨true, [⟨some "doc2".toList, "doc2.pdf".toList, []⟩,
            ⟨some "doc1".toList, "doc1.pdf".toList, []⟩,
            ⟨some "doc1".toList, "doc1.pdf".toList, []⟩]⟩
    (by decide) (by decide) (by decide) (by decide)

/-- Re-zipping the projections of a pair list gives it back. -/
theorem zip_map_fst_snd' {α β : Type} (l : List (α × β)) :
    (l.map Prod.fst).zip (l.map Prod.snd) = l := by
  rw [← List.unzip_fst, ← List.unzip_snd, List.zip_unzip]

/-- Claim C4 (frame property): for any aligned, well-formed store whose
metadata carries the `document_id` column, removing document A's chunks and
then appending document B's new batch produces exactly the old entries of
all other documents (every vector paired with its original metadata row, in
the original relative order) followed by the new batch — so every entry of
any document other than A, including all of B's pre-existing entries, is
untouched and keeps its relative order. -/
theorem frame_other_documents_preserved :
    ∀ (existingIndex : Option FaissIndex) (meta : MetaTable) (docA docB : Str)
      (nv : List Vec) (nr : List MetaRow) (idx' : FaissIndex) (meta' : MetaTable),
      meta.hasDocIdCol = true →
      WfIndexOpt existingIndex →
      ntotalOpt existingIndex = meta.rows.length →
      docA ≠ docB →
      (∀ r ∈ nr, r.document_id = some docB) →
      nv.length = nr.length →
      syncDocument existingIndex meta docA nv nr = some (idx', meta') →
      idx'.vecs.zip meta'.rows
        = ((vecsOpt existingIndex).zip meta.rows).filter
            (fun e => !(rowMatches docA e.2)) ++ nv.zip nr := by
  intro i meta docA docB nv nr idx' meta' hcol hwf hal hAB hnrB hlen h
  simp only [syncDocument] at h
  cases i with
  | none =>
      have hrem : removeOldDocumentChunks none meta docA = (none, meta, []) := by
        rw [removeOldDocumentChunks, if_pos (by simp)]
      rw [hrem] at h
      obtain ⟨hv, hm, _, _⟩ := updateFaissIndex_none_spec meta nv nr idx' meta' h
      rw [hv, hm]
      simp [vecsOpt]
  | some idx =>
      have hwf' : WfIndex idx := hwf
      have hal' : idx.vecs.length = meta.rows.length := hal
      by_cases h1 : meta.rows = []
      · rw [removeOld_empty_rows idx meta docA h1] at h
        obtain ⟨hi, hm, _⟩ := updateFaissIndex_some_spec idx meta nv nr idx' meta' h
        have hvnil : idx.vecs = [] :=
          List.length_eq_zero.mp (by rw [hal', h1]; rfl)
        rw [hi, hm]
        show (idx.vecs ++ nv).zip (concatMetadata meta nr).rows = _
        unfold concatMetadata
        rw [if_pos hcol, h1, hvnil]
        simp [vecsOpt, hvnil, h1]
      · by_cases h2 : chunksToRemove (applyDocIdFallback meta) docA = []
        · rw [removeOld_no_match idx meta docA h1 h2,
            applyDocIdFallback_of_hasCol meta hcol] at h
          rw [applyDocIdFallback_of_hasCol meta hcol] at h2
          obtain ⟨hi, hm, _⟩ :=
            updateFaissIndex_some_spec idx meta nv nr idx' meta' h
          have hnomatch : ∀ r ∈ meta.rows, rowMatches docA r = false :=
            markedIdxs_nil_forall (rowMatches docA) meta.rows h2
          have hfilter : (idx.vecs.zip meta.rows).filter
              (fun e => !(rowMatches docA e.2)) = idx.vecs.zip meta.rows := by
            apply List.filter_eq_self.mpr
            intro e he
            rcases e with ⟨a, b⟩
            simp [hnomatch b (List.of_mem_zip he).2]
          rw [hi, hm]
          show (idx.vecs ++ nv).zip (concatMetadata meta nr).rows = _
          unfold concatMetadata
          rw [if_pos hcol, List.zip_append hal']
          simp only [vecsOpt]
          rw [hfilter]
        · by_cases h3 : (applyDocIdFallback meta).rows.filter
              (fun r => !(rowMatches docA r)) = []
          · rw [removeOld_all_match idx meta docA h1 h2 h3] at h
            obtain ⟨hv, hm, _, _⟩ :=
              updateFaissIndex_none_spec emptyTable nv nr idx' meta' h
            rw [applyDocIdFallback_of_hasCol meta hcol] at h3
            have hzf : (idx.vecs.zip meta.rows).filter
                (fun e => !(rowMatches docA e.2)) = [] := by
              have hs := filter_zip_snd (rowMatches docA) idx.vecs meta.rows hal'
              rw [h3] at hs
              exact List.map_eq_nil_iff.mp hs
            rw [hv, hm]
            simp only [vecsOpt]
            rw [hzf, List.nil_append]
          · rw [removeOld_rebuild idx meta docA h1 h2 h3 hal' hwf',
              applyDocIdFallback_of_hasCol meta hcol] at h
            rw [applyDocIdFallback_of_hasCol meta hcol] at h3
            obtain ⟨hi, hm, _⟩ := updateFaissIndex_some_spec _ _ nv nr idx' meta' h
            have hsnd := filter_zip_snd (rowMatches docA) idx.vecs meta.rows hal'
            rw [hi, hm]
            show ((((idx.vecs.zip meta.rows).filter
                (fun e => !(rowMatches docA e.2))).map Prod.fst) ++ nv).zip
              (concatMetadata
                ⟨meta.hasDocIdCol,
                 meta.rows.filter (fun r => !(rowMatches docA r))⟩ nr).rows = _
            unfold concatMetadata
            rw [if_pos hcol, ← hsnd,
              List.zip_append (by rw [List.length_map, List.length_map]),
              zip_map_fst_snd']
            rfl

/-- Witness for `frame_other_documents_preserved`: reprocessing `doc1` in a
concrete 3-entry store leaves `doc2`'s entry (vector `[3, 4]` with its row)
unchanged in front of the new batch. -/
theorem frame_other_documents_preserved_witness :
    (FaissIndex.mk 2 [[3, 4], [7, 8]]).vecs.zip
        (MetaTable.mk true
          [⟨some "doc2".toList, "doc2.pdf".toList, []⟩,
           ⟨some "doc2".toList, "doc2b.pdf".toList, []⟩]).rows
      = ((vecsOpt (some ⟨2, [[1, 2], [3, 4], [5, 6]]⟩)).zip
          [⟨some "doc1".toList, "doc1.pdf".toList, []⟩,
           ⟨some "doc2".toList, "doc2.pdf".toList, []⟩,
           ⟨some "doc1".toList, "doc1.pdf".toList, []⟩]).filter
          (fun e => !(rowMatches "doc1".toList e.2))
        ++ [[7, 8]].zip [⟨some "doc2".toList, "doc2b.pdf".toList, []⟩] :=
  frame_other_documents_preserved (some ⟨2, [[1, 2], [3, 4], [5, 6]]⟩)
    ⟨true, [⟨some "doc1".toList, "doc1.pdf".toList, []⟩,
            ⟨some "doc2".toList, "doc2.pdf".toList, []⟩,
            ⟨some "doc1".toList, "doc1.pdf".toList, []⟩]⟩
    "doc1".toList "doc2".toList [[7, 8]]
    [⟨some "doc2".toList, "doc2b.pdf".toList, []⟩]
    ⟨2, [[3, 4], [7, 8]]⟩
    ⟨true, [⟨some "doc2".toList, "doc2.pdf".toList, []⟩,
            ⟨some "doc2".toList, "doc2b.pdf".toList, []⟩]⟩
    (by decide) (by decide) (by decide) (by decide) (by decide) (by decide)
    (by decide)

/-- Concatenation when the existing table has the `document_id` column. -/
theorem concatMetadata_of_hasCol (m : MetaTable) (h : m.hasDocIdCol = true)
    (nr : List MetaRow) : concatMetadata m nr = ⟨true, m.rows ++ nr⟩ := by
  unfold concatMetadata
  rw [if_pos h]

/-- A successful in-place append, in closed form. -/
theorem updateFaissIndex_build (idx : FaissIndex) (meta : MetaTable)
    (nv : List Vec) (nr : List MetaRow) (hdims : ∀ v ∈ nv, v.length = idx.d) :
    updateFaissIndex (some idx) meta nv nr
      = some (⟨idx.d, idx.vecs ++ nv⟩, concatMetadata meta nr) := by
  simp only [updateFaissIndex, faissAdd]
  rw [if_pos (by rw [List.all_eq_true]; intro v hv; simp [hdims v hv])]

/-- A successful fresh-index creation, in closed form. -/
theorem updateFaissIndex_fresh (v : Vec) (vt : List Vec) (meta : MetaTable)
    (nr : List MetaRow) (d : Nat) (hd : v.length = d)
    (hdims : ∀ w ∈ v :: vt, w.length = d) :
    updateFaissIndex none meta (v :: vt) nr
      = some (⟨d, v :: vt⟩, ⟨true, nr⟩) := by
  subst hd
  simp only [updateFaissIndex, faissAdd]
  rw [if_pos (by rw [List.all_eq_true]; intro w hw; simp [indexFlatIP, hdims w hw])]
  simp [indexFlatIP]

/-- The state after any successful synchronization run: the index is some
kept block followed by the new vectors, the metadata is the aligned kept
rows (none of which belongs to the synchronized document) followed by the
new rows, the `document_id` column is present, and the index is well-formed
with every new vector of its dimension. -/
theorem sync_shape (i : Option FaissIndex) (meta : MetaTable) (documentId : Str)
    (nv : List Vec) (nr : List MetaRow) (idx' : FaissIndex) (meta' : MetaTable)
    (hwf : WfIndexOpt i) (hal : ntotalOpt i = meta.rows.length)
    (h : syncDocument i meta documentId nv nr = some (idx', meta')) :
    ∃ V K, idx'.vecs = V ++ nv ∧ meta'.rows = K ++ nr ∧ V.length = K.length ∧
      (∀ r ∈ K, rowMatches documentId r = false) ∧ meta'.hasDocIdCol = true ∧
      WfIndex idx' ∧ (∀ v ∈ nv, v.length = idx'.d) := by
  simp only [syncDocument] at h
  cases i with
  | none =>
      have hrem : removeOldDocumentChunks none meta documentId = (none, meta, []) := by
        rw [removeOldDocumentChunks, if_pos (by simp)]
      rw [hrem] at h
      obtain ⟨hv, hm, hdims, _⟩ := updateFaissIndex_none_spec meta nv nr idx' meta' h
      refine ⟨[], [], by simp [hv], by simp [hm], rfl, by simp, by simp [hm], ?_, hdims⟩
      intro w hw
      rw [hv] at hw
      exact hdims w hw
  | some idx =>
      have hwf' : WfIndex idx := hwf
      have hal' : idx.vecs.length = meta.rows.length := hal
      by_cases h1 : meta.rows = []
      · rw [removeOld_empty_rows idx meta documentId h1] at h
        obtain ⟨hi, hm, hdims⟩ := updateFaissIndex_some_spec idx meta nv nr idx' meta' h
        have hvnil : idx.vecs = [] :=
          List.length_eq_zero.mp (by rw [hal', h1]; rfl)
        refine ⟨[], [], by rw [hi]; simp [hvnil], ?_, rfl, by simp, ?_, ?_, ?_⟩
        · rw [hm]
          unfold concatMetadata
          by_cases hc : meta.hasDocIdCol
          · rw [if_pos hc, h1]
          · rw [if_neg hc, h1]
            simp
        · rw [hm]
          unfold concatMetadata
          by_cases hc : meta.hasDocIdCol
          · rw [if_pos hc]
          · rw [if_neg hc]
        · intro w hw
          rw [hi] at hw ⊢
          rw [hvnil] at hw
          exact hdims w (by simpa using hw)
        · intro w hw
          rw [hi]
          exact hdims w hw
      · by_cases h2 : chunksToRemove (applyDocIdFallback meta) documentId = []
        · rw [removeOld_no_match idx meta documentId h1 h2] at h
          obtain ⟨hi, hm, hdims⟩ :=
            updateFaissIndex_some_spec idx (applyDocIdFallback meta) nv nr idx' meta' h
          have hclean : ∀ r ∈ (applyDocIdFallback meta).rows,
              rowMatches documentId r = false :=
            markedIdxs_nil_forall (rowMatches documentId)
              (applyDocIdFallback meta).rows h2
          refine ⟨idx.vecs, (applyDocIdFallback meta).rows, by rw [hi], ?_,
            by rw [applyDocIdFallback_length]; exact hal', hclean, ?_, ?_, ?_⟩
          · rw [hm, concatMetadata_of_hasCol _ (applyDocIdFallback_hasCol meta)]
          · rw [hm, concatMetadata_of_hasCol _ (applyDocIdFallback_hasCol meta)]
          · intro w hw
            rw [hi] at hw ⊢
            rcases List.mem_append.mp hw with hw | hw
            · exact hwf' w hw
            · exact hdims w hw
          · intro w hw
            rw [hi]
            exact hdims w hw
        · by_cases h3 : (applyDocIdFallback meta).rows.filter
              (fun r => !(rowMatches documentId r)) = []
          · rw [removeOld_all_match idx meta documentId h1 h2 h3] at h
            obtain ⟨hv, hm, hdims, _⟩ :=
              updateFaissIndex_none_spec emptyTable nv nr idx' meta' h
            refine ⟨[], [], by simp [hv], by simp [hm], rfl, by simp,
              by simp [hm], ?_, hdims⟩
            intro w hw
            rw [hv] at hw
            exact hdims w hw
          · have hal1 : idx.vecs.length = (applyDocIdFallback meta).rows.length := by
              rw [applyDocIdFallback_length]; exact hal'
            rw [removeOld_rebuild idx meta documentId h1 h2 h3 hal' hwf'] at h
            obtain ⟨hi, hm, hdims⟩ :=
              updateFaissIndex_some_spec _ _ nv nr idx' meta' h
            have hsnd := filter_zip_snd (rowMatches documentId) idx.vecs
              (applyDocIdFallback meta).rows hal1
            have hcc := concatMetadata_of_hasCol
              ⟨(applyDocIdFallback meta).hasDocIdCol,
               (applyDocIdFallback meta).rows.filter
                 (fun r => !(rowMatches documentId r))⟩
              (applyDocIdFallback_hasCol meta) nr
            refine ⟨((idx.vecs.zip (applyDocIdFallback meta).rows).filter
                (fun e => !(rowMatches documentId e.2))).map Prod.fst,
              (applyDocIdFallback meta).rows.filter
                (fun r => !(rowMatches documentId r)),
              by rw [hi], ?_, by rw [List.length_map, ← hsnd, List.length_map],
              ?_, ?_, ?_, ?_⟩
            · rw [hm, hcc]
            · intro r hr
              have := (List.mem_filter.mp hr).2
              simpa using this
            · rw [hm, hcc]
            · intro w hw
              rw [hi] at hw ⊢
              rcases List.mem_append.mp hw with hw | hw
              · rcases List.mem_map.mp hw with ⟨e, he, hev⟩
                rcases e with ⟨a, b⟩
                have ha : a ∈ idx.vecs :=
                  (List.of_mem_zip (List.mem_filter.mp he).1).1
                rw [← hev]
                exact hwf' a ha
              · exact hdims w hw
            · intro w hw
              rw [hi]
              exact hdims w hw

/-- Claim C3 (idempotence per document_id): if one synchronization run of a
document (remove its stale chunks, then append its new batch, every new row
carrying that `document_id`, one row per vector) succeeds and produces the
state `(idx', meta')`, then running the same synchronization again on that
state succeeds and reproduces exactly `(idx', meta')`: the old chunks are
fully superseded, no duplicate rows for the document remain, and every other
document's entries (and the total vector count) are untouched by the second
run. -/
theorem sync_idempotent_per_document :
    ∀ (existingIndex : Option FaissIndex) (meta : MetaTable) (documentId : Str)
      (nv : List Vec) (nr : List MetaRow) (idx' : FaissIndex) (meta' : MetaTable),
      WfIndexOpt existingIndex →
      ntotalOpt existingIndex = meta.rows.length →
      (∀ r ∈ nr, r.document_id = some documentId) →
      nv.length = nr.length →
      syncDocument existingIndex meta documentId nv nr = some (idx', meta') →
      syncDocument (some idx') meta' documentId nv nr = some (idx', meta') := by
  intro i meta documentId nv nr idx' meta' hwf hal hnrP hlen h
  obtain ⟨V, K, hV, hK, hVK, hKcl, hcol', hwf', hdims⟩ :=
    sync_shape i meta documentId nv nr idx' meta' hwf hal h
  have hnrPb : ∀ r ∈ nr, rowMatches documentId r = true := by
    intro r hr
    simp [rowMatches, hnrP r hr]
  have hfb : applyDocIdFallback meta' = meta' :=
    applyDocIdFallback_of_hasCol meta' hcol'
  simp only [syncDocument]
  by_cases hnr : nr = []
  · have hnv : nv = [] := by
      rw [hnr] at hlen
      exact List.length_eq_zero.mp hlen
    have hupd0 : updateFaissIndex (some idx') meta' nv nr = some (idx', meta') := by
      rw [updateFaissIndex_build idx' meta' nv nr hdims,
        concatMetadata_of_hasCol meta' hcol', hnv, hnr, List.append_nil,
        List.append_nil]
      have h2 : (MetaTable.mk true meta'.rows) = meta' := by
        rcases meta' with ⟨c0, rows0⟩
        have hc0 : c0 = true := hcol'
        rw [hc0]
      rw [h2]
    by_cases hrows0 : meta'.rows = []
    · rw [removeOld_empty_rows idx' meta' documentId hrows0]
      exact hupd0
    · have h2' : chunksToRemove (applyDocIdFallback meta') documentId = [] := by
        rw [hfb]
        unfold chunksToRemove
        apply markedIdxs_eq_nil
        intro r hr
        rw [hK, hnr, List.append_nil] at hr
        exact hKcl r hr
      rw [removeOld_no_match idx' meta' documentId hrows0 h2', hfb]
      exact hupd0
  · have hrowsne : meta'.rows ≠ [] := by
      rw [hK]
      intro he
      exact hnr (List.append_eq_nil.mp he).2
    have htr : chunksToRemove (applyDocIdFallback meta') documentId ≠ [] := by
      rw [hfb]
      unfold chunksToRemove
      rw [hK, markedIdxs_append, markedIdxs_eq_nil _ K hKcl, List.nil_append,
        markedIdxs_all_true _ nr hnrPb]
      simp [List.map_eq_nil_iff, List.range_eq_nil, List.length_eq_zero, hnr]
    have hfilterK : meta'.rows.filter (fun r => !(rowMatches documentId r)) = K := by
      rw [hK, List.filter_append,
        List.filter_eq_self.mpr (fun r hr => by simp [hKcl r hr]),
        List.filter_eq_nil_iff.mpr (fun r hr hx => by simp [hnrPb r hr] at hx),
        List.append_nil]
    have hupd : updateFaissIndex (some ⟨idx'.d, V⟩) (⟨true, K⟩ : MetaTable) nv nr
        = some (idx', meta') := by
      rw [updateFaissIndex_build ⟨idx'.d, V⟩ ⟨true, K⟩ nv nr
          (fun v hv => hdims v hv),
        concatMetadata_of_hasCol ⟨true, K⟩ rfl]
      have h1 : (FaissIndex.mk idx'.d (V ++ nv)) = idx' :=
        congrArg (FaissIndex.mk idx'.d) hV.symm
      have h2 : (MetaTable.mk true (K ++ nr)) = meta' := by
        rcases meta' with ⟨c0, rows0⟩
        have hc0 : c0 = true := hcol'
        have hr0 : rows0 = K ++ nr := hK
        rw [hc0, hr0]
      rw [h1, h2]
    by_cases hKnil : K = []
    · have h3' : (applyDocIdFallback meta').rows.filter
          (fun r => !(rowMatches documentId r)) = [] := by
        rw [hfb, hfilterK, hKnil]
      rw [removeOld_all_match idx' meta' documentId hrowsne htr h3']
      have hnvne : nv ≠ [] := by
        intro he
        rw [he] at hlen
        exact hnr (List.length_eq_zero.mp hlen.symm)
      obtain ⟨v, vt, rfl⟩ := List.exists_cons_of_ne_nil hnvne
      have hV0 : V = [] := by
        apply List.length_eq_zero.mp
        rw [hVK, hKnil]
        rfl
      show updateFaissIndex none emptyTable (v :: vt) nr = some (idx', meta')
      rw [updateFaissIndex_fresh v vt emptyTable nr idx'.d
        (hdims v (List.mem_cons_self v vt)) hdims]
      have h1 : (FaissIndex.mk idx'.d (v :: vt)) = idx' := by
        have : V ++ v :: vt = v :: vt := by rw [hV0]; rfl
        exact congrArg (FaissIndex.mk idx'.d) (this ▸ hV).symm
      have h2 : (MetaTable.mk true nr) = meta' := by
        rcases meta' with ⟨c0, rows0⟩
        have hc0 : c0 = true := hcol'
        have hr0 : rows0 = K ++ nr := hK
        rw [hc0, hr0, hKnil, List.nil_append]
      rw [h1, h2]
    · have h3' : (applyDocIdFallback meta').rows.filter
          (fun r => !(rowMatches documentId r)) ≠ [] := by
        rw [hfb, hfilterK]
        exact hKnil
      have hal2 : idx'.vecs.length = meta'.rows.length := by
        rw [hV, hK]
        simp [hVK, hlen]
      rw [removeOld_rebuild idx' meta' documentId hrowsne htr h3' hal2 hwf', hfb]
      have hF2 : (idx'.vecs.zip meta'.rows).filter
          (fun e => !(rowMatches documentId e.2)) = V.zip K := by
        rw [hV, hK, List.zip_append hVK, List.filter_append,
          List.filter_eq_self.mpr (fun e he => by
            rcases e with ⟨a, b⟩
            simp [hKcl b (List.of_mem_zip he).2]),
          List.filter_eq_nil_iff.mpr (fun e he hx => by
            rcases e with ⟨a, b⟩
            simp [hnrPb b (List.of_mem_zip he).2] at hx),
          List.append_nil]
      rw [hF2, List.map_fst_zip V K (le_of_eq hVK), hfilterK, hcol']
      exact hupd

/-- Witness for `sync_idempotent_per_document`: re-running `doc1`'s
synchronization on the concrete state produced by its first run reproduces
that state exactly. -/
theorem sync_idempotent_per_document_witness :
    syncDocument (some ⟨2, [[3, 4], [7, 8], [9, 10]]⟩)
        ⟨true, [⟨some "doc2".toList, "doc2.pdf".toList, []⟩,
                ⟨some "doc1".toList, "doc1.pdf".toList, []⟩,
                ⟨some "doc1".toList, "doc1.pdf".toList, []⟩]⟩
        "doc1".toList [[7, 8], [9, 10]]
        [⟨some "doc1".toList, "doc1.pdf".toList, []⟩,
         ⟨some "doc1".toList, "doc1.pdf".toList, []⟩]
      = some (⟨2, [[3, 4], [7, 8], [9, 10]]⟩,
          ⟨true, [⟨some "doc2".toList, "doc2.pdf".toList, []⟩,
                  ⟨some "doc1".toList, "doc1.pdf".toList, []⟩,
                  ⟨some "doc1".toList, "doc1.pdf".toList, []⟩]⟩) :=
  sync_idempotent_per_document (some ⟨2, [[1, 2], [3, 4], [5, 6]]⟩)
    ⟨true, [⟨some "doc1".toList, "doc1.pdf".toList, []⟩,
            ⟨some "doc2".toList, "doc2.pdf".toList, []⟩,
            ⟨some "doc1".toList, "doc1.pdf".toList, []⟩]⟩
    "doc1".toList [[7, 8], [9, 10]]
    [⟨some "doc1".toList, "doc1.pdf".toList, []⟩,
     ⟨some "doc1".toList, "doc1.pdf".toList, []⟩]
    ⟨2, [[3, 4], [7, 8], [9, 10]]⟩
    ⟨true, [⟨some "doc2".toList, "doc2.pdf".toList, []⟩,
            ⟨some "doc1".toList, "doc1.pdf".toList, []⟩,
            ⟨some "doc1".toList, "doc1.pdf".toList, []⟩]⟩
    (by decide) (by decide) (by decide) (by decide) (by decide)
